import Mathlib

/-!
Verification of the IPv4 deduplication/aggregation tool
(src/tools/ipv4_deduplication_aggregation.go).

The Go program represents an IPv4 network as an iplib.Net, i.e. a base
address (4 bytes) together with a CIDR mask.  We embed it as a pair of
naturals: the 32-bit address value and the mask size ("plen", called
"prefix length" in the spec; the Go code obtains it via Mask.Size()).
Machine arithmetic on addresses is modelled with Nat, masking with
truncating division by powers of two.
-/

/-- An IPv4 network value: 32-bit base address and mask size.
Models the iplib.Net values manipulated by the Go code (the field
name plen stands for the prefix length returned by Mask.Size()). -/
structure Network where
  addr : Nat
  plen : Nat
deriving DecidableEq

/-- Number of addresses in the network: 2^(32 - plen).
For the Go code this is the size of the CIDR block. -/
def sz (n : Network) : Nat := 2 ^ (32 - n.plen)

/-- Models applying the p-bit netmask to a 32-bit address
(`ip.Mask(net.CIDRMask(p, 32))` in Go): clear the low 32-p bits.
For a < 2^32 this agrees with the bitwise AND the Go library performs. -/
def maskA (p : Nat) (a : Nat) : Nat := a / 2 ^ (32 - p) * 2 ^ (32 - p)

/-- A well-formed network value as produced by the Go parser and by
supernet computation: mask size at most 32, address within 32 bits and
with all host bits zero. -/
def normal (n : Network) : Prop :=
  n.plen ≤ 32 ∧ n.addr < 2 ^ 32 ∧ maskA n.plen n.addr = n.addr

instance (n : Network) : Decidable (normal n) := by
  unfold normal; infer_instance

/-- x lies in the address range of n. -/
def inR (n : Network) (x : Nat) : Prop := n.addr ≤ x ∧ x < n.addr + sz n

instance (n : Network) (x : Nat) : Decidable (inR n x) := by
  unfold inR; infer_instance

/-- x is covered by some network of the list. -/
def covered (l : List Network) (x : Nat) : Prop := ∃ n ∈ l, inR n x

/-- The set of 32-bit addresses covered by a list of networks. -/
def coverageSet (l : List Network) : Set Nat := { x | covered l x }

lemma sz_pos (n : Network) : 0 < sz n := Nat.pos_pow_of_pos _ (by omega)

lemma maskA_le (p a : Nat) : maskA p a ≤ a := Nat.div_mul_le_self a _

lemma lt_maskA_add (p a : Nat) : a < maskA p a + 2 ^ (32 - p) := by
  have h := Nat.div_add_mod a (2 ^ (32 - p))
  rw [Nat.mul_comm] at h
  have h2 : a % 2 ^ (32 - p) < 2 ^ (32 - p) :=
    Nat.mod_lt _ (Nat.pos_pow_of_pos _ (by omega))
  unfold maskA; omega

lemma maskA_dvd (p a : Nat) : 2 ^ (32 - p) ∣ maskA p a :=
  ⟨a / 2 ^ (32 - p), Nat.mul_comm _ _⟩

lemma maskA_eq_self_of_dvd {p a : Nat} (h : 2 ^ (32 - p) ∣ a) : maskA p a = a :=
  Nat.div_mul_cancel h

lemma maskA_eq_of_inRange {p A x : Nat} (hA : 2 ^ (32 - p) ∣ A)
    (h1 : A ≤ x) (h2 : x < A + 2 ^ (32 - p)) : maskA p x = A := by
  obtain ⟨k, hk⟩ := hA
  have hs : 0 < 2 ^ (32 - p) := Nat.pos_pow_of_pos _ (by omega)
  have : x / 2 ^ (32 - p) = k := by
    apply Nat.div_eq_of_lt_le
    · calc k * 2 ^ (32 - p) = A := by rw [hk, Nat.mul_comm]
      _ ≤ x := h1
    · calc x < A + 2 ^ (32 - p) := h2
      _ = (k + 1) * 2 ^ (32 - p) := by rw [hk]; ring
  unfold maskA
  rw [this, hk, Nat.mul_comm]

lemma maskA_maskA {p q : Nat} (hpq : p ≤ q) (x : Nat) :
    maskA p (maskA q x) = maskA p x := by
  have hd : 2 ^ (32 - q) ∣ 2 ^ (32 - p) := pow_dvd_pow 2 (by omega)
  obtain ⟨d, hdd⟩ := hd
  have hq : 0 < 2 ^ (32 - q) := Nat.pos_pow_of_pos _ (by omega)
  unfold maskA
  rw [hdd]
  congr 1
  rw [← Nat.div_div_eq_div_mul, ← Nat.div_div_eq_div_mul, Nat.mul_div_cancel _ hq]

lemma maskA_lt {p a : Nat} (h : a < 2 ^ 32) : maskA p a < 2 ^ 32 :=
  Nat.lt_of_le_of_lt (maskA_le p a) h

/-- Membership in the block of an aligned base address, as a division fact. -/
lemma inR_iff_maskA {n : Network} (hn : normal n) (x : Nat) :
    inR n x ↔ maskA n.plen x = n.addr := by
  obtain ⟨h32, hlt, hmask⟩ := hn
  constructor
  · rintro ⟨h1, h2⟩
    exact maskA_eq_of_inRange (hmask ▸ maskA_dvd n.plen n.addr) h1 h2
  · intro h
    refine ⟨h ▸ maskA_le _ _, ?_⟩
    have := lt_maskA_add n.plen x
    unfold sz
    omega

lemma sz_le_sz_of_plen {a b : Network} (ha : a.plen ≤ 32) (h : a.plen ≤ b.plen) :
    sz b ≤ sz a := Nat.pow_le_pow_right (by omega) (by omega)

lemma plen_le_of_sz_le {a b : Network} (ha : a.plen ≤ 32) (hb : b.plen ≤ 32)
    (h : sz b ≤ sz a) : a.plen ≤ b.plen := by
  by_contra hc
  have hlt : (2 : Nat) ^ (32 - a.plen) < 2 ^ (32 - b.plen) :=
    Nat.pow_lt_pow_right (by omega) (by omega)
  unfold sz at h
  omega

/-!
## The primitives used by the aggregation algorithm

These model the iplib operations the Go code calls: ContainsNet,
Supernet(0), CompareNets and the ByNet sort order.
-/

/-- Models iplib Net.ContainsNet: the receiver's mask size is at most the
argument's and masking the argument's address with the receiver's mask
yields the receiver's address. -/
def containsNet (a b : Network) : Bool :=
  decide (a.plen ≤ b.plen) && decide (maskA a.plen b.addr = a.addr)

/-- Models iplib Net.Supernet(0): the closest supernet, with mask size one
less and the address re-masked.  For plen = 0 the Go library returns the
zero Net value together with an error that the caller discards; we return
the degenerate value with address 0 and mask size 0 as a total stand-in
(theorem C10 shows this case is never reached by the pipeline). -/
def supernetClosest (n : Network) : Network :=
  if n.plen = 0 then ⟨0, 0⟩ else ⟨maskA (n.plen - 1) n.addr, n.plen - 1⟩

/-- Models the ByNet sort order used by sort.Sort in getNetsFromString:
CompareNets orders by address first, then by mask size ascending. -/
def netLE (a b : Network) : Prop :=
  a.addr < b.addr ∨ (a.addr = b.addr ∧ a.plen ≤ b.plen)

instance : DecidableRel netLE := fun a b => by unfold netLE; infer_instance

instance : IsTotal Network netLE := ⟨by intro a b; unfold netLE; omega⟩

instance : IsTrans Network netLE := ⟨by intro a b c; unfold netLE; omega⟩

instance : IsAntisymm Network netLE :=
  ⟨by intro a b h1 h2; unfold netLE at *; cases a; cases b; simp_all; omega⟩

/-- Models the sort.Sort(iplib.ByNet(list)) call: the ByNet order is total
and antisymmetric on the embedded Network values, so every correct sorting
algorithm produces the same output list; we use insertion sort. -/
def sortNets (l : List Network) : List Network := List.insertionSort netLE l

/-!
## The functions of the Go file, embedded one-to-one
-/

/-- Models lastIsNotGiven: the last element of sources differs from every
given net (CompareNets != 0 is exactly inequality of the embedded values).
The Go code indexes sources[len(sources)-1] and would panic on an empty
slice; both call sites guard non-emptiness, and on [] this total version
returns true. -/
def lastIsNotGiven (sources : List Network) (nets : List Network) : Bool :=
  nets.all fun i => decide (sources.getLast? ≠ some i)

/-- Models largeNetsAbsorbSmall. -/
def largeNetsAbsorbSmall (absorbed : List Network) (superNet net : Network) :
    List Network × Network :=
  if containsNet superNet net = false then (absorbed ++ [net], net)
  else (absorbed, superNet)

/-- Models smallMergedToLarge. -/
def smallMergedToLarge (aggregated : List Network) (net1 net2 : Network) :
    List Network × Network :=
  let net1SuperNet := supernetClosest net1
  let net2SuperNet := supernetClosest net2
  if net1.plen = net2.plen ∧ net1SuperNet = net2SuperNet then
    let aggregated2 :=
      if aggregated.length ≠ 0 ∧ lastIsNotGiven aggregated [net1] = false then
        aggregated.dropLast
      else aggregated
    (aggregated2 ++ [net1SuperNet], net2)
  else
    let aggregated2 :=
      if aggregated.length = 0 then aggregated ++ [net1]
      else if lastIsNotGiven aggregated [net1, net1SuperNet] = true then
        aggregated ++ [net1]
      else aggregated
    (aggregated2 ++ [net2], net2)

/-- The merge condition of smallMergedToLarge: equal mask sizes and equal
closest supernets. -/
abbrev mergeOK (net1 net2 : Network) : Prop :=
  net1.plen = net2.plen ∧ supernetClosest net1 = supernetClosest net2

/-- The inner for-loop of one merge pass in aggregateNetworks:
fold smallMergedToLarge over the tail. -/
def mergeFold : List Network → Network → List Network → List Network
  | aggregated, _, [] => aggregated
  | aggregated, net1, net2 :: rest =>
    mergeFold (smallMergedToLarge aggregated net1 net2).1
      (smallMergedToLarge aggregated net1 net2).2 rest

/-- One merge pass of aggregateNetworks: mergeList starts empty, net1
starts as the head.  On a list of fewer than two elements the Go loop
body never runs and the pass returns the (empty) mergeList; the Go code
only ever invokes a pass on lists of length at least 2. -/
def mergePass : List Network → List Network
  | [] => []
  | net1 :: rest => mergeFold [] net1 rest

/-- The sequence of (net1, net2) argument pairs fed to smallMergedToLarge
by one merge pass, used to reason about which invocations occur. -/
def mergeFoldCalls : List Network → Network → List Network → List (Network × Network)
  | _, _, [] => []
  | aggregated, net1, net2 :: rest =>
    (net1, net2) :: mergeFoldCalls (smallMergedToLarge aggregated net1 net2).1
      (smallMergedToLarge aggregated net1 net2).2 rest

/-- Argument pairs of one whole pass. -/
def mergePassCalls : List Network → List (Network × Network)
  | [] => []
  | net1 :: rest => mergeFoldCalls [] net1 rest

/-- Rewriting lemma exposing the two branches of smallMergedToLarge. -/
lemma smallMergedToLarge_eq (aggregated : List Network) (net1 net2 : Network) :
    smallMergedToLarge aggregated net1 net2 =
    if net1.plen = net2.plen ∧ supernetClosest net1 = supernetClosest net2 then
      ((if aggregated.length ≠ 0 ∧ lastIsNotGiven aggregated [net1] = false then
          aggregated.dropLast
        else aggregated) ++ [supernetClosest net1], net2)
    else
      ((if aggregated.length = 0 then aggregated ++ [net1]
        else if lastIsNotGiven aggregated [net1, supernetClosest net1] = true then
          aggregated ++ [net1]
        else aggregated) ++ [net2], net2) := rfl

/-- Both branches of smallMergedToLarge return net2 as the running net1 for
the next comparison; the computed supernet is only appended to the output. -/
lemma smallMergedToLarge_snd (aggregated : List Network) (net1 net2 : Network) :
    (smallMergedToLarge aggregated net1 net2).2 = net2 := by
  rw [smallMergedToLarge_eq]
  split <;> rfl

lemma getLast?_append_one (l : List Network) (a : Network) :
    (l ++ [a]).getLast? = some a := by
  induction l with
  | nil => rfl
  | cons b t ih => simp [List.cons_append, List.getLast?_cons, ih]

lemma lastIsNotGiven_one (acc : List Network) (n : Network) :
    lastIsNotGiven acc [n] = false ↔ acc.getLast? = some n := by
  simp [lastIsNotGiven]

lemma lastIsNotGiven_two (acc : List Network) (a b : Network) :
    lastIsNotGiven acc [a, b] = true ↔
      acc.getLast? ≠ some a ∧ acc.getLast? ≠ some b := by
  simp [lastIsNotGiven]

/-- Invariant of the merge fold: the last element written so far is either
the running net1 itself or its closest supernet. -/
def LastP (acc : List Network) (net1 : Network) : Prop :=
  acc.getLast? = some net1 ∨ acc.getLast? = some (supernetClosest net1)

/-- One step of the merge fold from a state satisfying LastP appends at
most one element and re-establishes LastP. -/
lemma smallMergedToLarge_step (acc : List Network) (net1 net2 : Network)
    (h : LastP acc net1) :
    (smallMergedToLarge acc net1 net2).1.length ≤ acc.length + 1 ∧
      LastP (smallMergedToLarge acc net1 net2).1 net2 := by
  have hne : acc ≠ [] := by
    intro he
    rcases h with h | h <;> simp [he] at h
  rw [smallMergedToLarge_eq]
  by_cases hm : net1.plen = net2.plen ∧ supernetClosest net1 = supernetClosest net2
  · rw [if_pos hm]
    constructor
    · simp only [List.length_append, List.length_cons, List.length_nil]
      split
      · have := List.length_dropLast acc
        omega
      · omega
    · right
      rw [getLast?_append_one, hm.2]
  · rw [if_neg hm]
    constructor
    · simp only [List.length_append, List.length_cons, List.length_nil]
      split
      · rename_i hz
        exact absurd (List.length_eq_zero.mp hz) hne
      · split
        · rename_i hgiven
          rw [lastIsNotGiven_two] at hgiven
          rcases h with h | h
          · exact absurd h hgiven.1
          · exact absurd h hgiven.2
        · omega
    · left
      rw [getLast?_append_one]

/-- The merge fold never lengthens its accumulator by more than the number
of elements consumed, as long as the LastP invariant holds. -/
lemma mergeFold_length_le (rest : List Network) :
    ∀ acc net1, LastP acc net1 →
      (mergeFold acc net1 rest).length ≤ acc.length + rest.length := by
  induction rest with
  | nil => intro acc net1 _; simp [mergeFold]
  | cons net2 rest ih =>
    intro acc net1 h
    have step := smallMergedToLarge_step acc net1 net2 h
    rw [mergeFold, smallMergedToLarge_snd]
    have := ih (smallMergedToLarge acc net1 net2).1 net2 step.2
    simp only [List.length_cons]
    omega

/-- A merge pass never produces a longer list than its input. -/
lemma mergePass_length_le (l : List Network) :
    (mergePass l).length ≤ l.length := by
  match l with
  | [] => simp [mergePass]
  | [net1] => simp [mergePass, mergeFold]
  | net1 :: net2 :: rest =>
    rw [mergePass, mergeFold, smallMergedToLarge_snd]
    have hstep : (smallMergedToLarge [] net1 net2).1.length ≤ 2 ∧
        LastP (smallMergedToLarge [] net1 net2).1 net2 := by
      rw [smallMergedToLarge_eq]
      by_cases hm : net1.plen = net2.plen ∧
          supernetClosest net1 = supernetClosest net2
      · rw [if_pos hm]
        refine ⟨by simp, Or.inr ?_⟩
        simp only
        rw [getLast?_append_one, hm.2]
      · rw [if_neg hm]
        exact ⟨by simp, Or.inl (by simp only; rw [getLast?_append_one])⟩
    have := mergeFold_length_le rest (smallMergedToLarge [] net1 net2).1 net2
      hstep.2
    simp only [List.length_cons]
    omega

/-!
## The merge fixpoint loop and aggregateNetworks

The Go loop keeps netsNumber, the length against which a pass's output is
compared; it is initialised to len(nets) before absorption and set to the
current list length after every non-final pass.  We unroll the first
iteration (mergeLoop), after which netsNumber always equals the length of
the pass's own input, giving the self-consistent loop mergeLoopC.
-/

/-- The merge loop from its second iteration on: here netsNumber is
exactly the length of the current sourceNets. -/
def mergeLoopC (l : List Network) : List Network :=
  if h : (mergePass l).length = l.length ∨ (mergePass l).length = 1 then
    mergePass l
  else mergeLoopC (mergePass l)
termination_by l.length
decreasing_by
  have := mergePass_length_le l
  omega

/-- The full merge loop of aggregateNetworks: the first pass's output is
compared against the given netsNumber (the pre-absorption input length in
the Go code), subsequent passes against their own input length. -/
def mergeLoop (sourceNets : List Network) (netsNumber : Nat) : List Network :=
  if (mergePass sourceNets).length = netsNumber ∨
      (mergePass sourceNets).length = 1 then
    mergePass sourceNets
  else mergeLoopC (mergePass sourceNets)

/-- Number of merge passes executed by mergeLoopC. -/
def mergeLoopCCount (l : List Network) : Nat :=
  if h : (mergePass l).length = l.length ∨ (mergePass l).length = 1 then 1
  else 1 + mergeLoopCCount (mergePass l)
termination_by l.length
decreasing_by
  have := mergePass_length_le l
  omega

/-- Number of merge passes executed by mergeLoop. -/
def mergeLoopCount (sourceNets : List Network) (netsNumber : Nat) : Nat :=
  if (mergePass sourceNets).length = netsNumber ∨
      (mergePass sourceNets).length = 1 then 1
  else 1 + mergeLoopCCount (mergePass sourceNets)

/-- All (net1, net2) argument pairs passed to smallMergedToLarge during
the passes executed by mergeLoopC. -/
def mergeLoopCCalls (l : List Network) : List (Network × Network) :=
  if h : (mergePass l).length = l.length ∨ (mergePass l).length = 1 then
    mergePassCalls l
  else mergePassCalls l ++ mergeLoopCCalls (mergePass l)
termination_by l.length
decreasing_by
  have := mergePass_length_le l
  omega

/-- All argument pairs passed to smallMergedToLarge during mergeLoop. -/
def mergeLoopCalls (sourceNets : List Network) (netsNumber : Nat) :
    List (Network × Network) :=
  if (mergePass sourceNets).length = netsNumber ∨
      (mergePass sourceNets).length = 1 then
    mergePassCalls sourceNets
  else mergePassCalls sourceNets ++ mergeLoopCCalls (mergePass sourceNets)

/-- The absorb for-loop of aggregateNetworks, folding
largeNetsAbsorbSmall over the tail of the sorted input. -/
def absorbFold : List Network → List Network → Network → List Network
  | [], absorbed, _ => absorbed
  | net :: rest, absorbed, superNet =>
    absorbFold rest (largeNetsAbsorbSmall absorbed superNet net).1
      (largeNetsAbsorbSmall absorbed superNet net).2

/-- The absorb phase: the first network seeds both the result list and the
running candidate supernet. -/
def absorbRun : List Network → List Network
  | [] => []
  | n0 :: rest => absorbFold rest [n0] n0

/-- Models aggregateNetworks. -/
def aggregateNetworks (nets : List Network) : List Network :=
  if nets.length < 2 then nets
  else if (absorbRun nets).length = 1 then absorbRun nets
  else mergeLoop (absorbRun nets) nets.length

/-- Number of merge passes executed by aggregateNetworks. -/
def aggregateCount (nets : List Network) : Nat :=
  if nets.length < 2 then 0
  else if (absorbRun nets).length = 1 then 0
  else mergeLoopCount (absorbRun nets) nets.length

/-- All argument pairs passed to smallMergedToLarge while running
aggregateNetworks. -/
def aggregateCalls (nets : List Network) : List (Network × Network) :=
  if nets.length < 2 then []
  else if (absorbRun nets).length = 1 then []
  else mergeLoopCalls (absorbRun nets) nets.length

/-!
## Parsing and the input layer

parseCIDR models iplib.ParseCIDR for IPv4, which defers to Go's
net.ParseCIDR: the string is split at the first slash, the address part
must be four dot-separated decimal octets (each at most 255, no leading
zeros, per the Go standard library), the mask part a decimal number of at
most 32; the returned network address is the literal address masked with
the prefix mask, so host bits are cleared.
-/

/-- Models Go's dtoi on a character list: parse a decimal number, also
returning the number of characters consumed and an ok flag (false when no
digit is present or the accumulated value reaches the 0xFFFFFF cap). -/
def dtoiAux : List Char → Nat → Nat → Nat × Nat × Bool
  | [], n, i => if i = 0 then (0, 0, false) else (n, i, true)
  | c :: rest, n, i =>
    if '0' ≤ c ∧ c ≤ '9' then
      let n2 := n * 10 + (c.toNat - '0'.toNat)
      if n2 ≥ 0xFFFFFF then (0xFFFFFF, i + 1, false)
      else dtoiAux rest n2 (i + 1)
    else if i = 0 then (0, 0, false) else (n, i, true)

def dtoi (s : List Char) : Nat × Nat × Bool := dtoiAux s 0 0

/-- Parse one decimal octet field: value at most 255, no leading zero
(Go's parseIPv4 rejects a field of more than one digit starting with 0).
Returns the value and the remaining characters. -/
def parseOctet (s : List Char) : Option (Nat × List Char) :=
  match dtoi s with
  | (n, c, ok) =>
    if ok ∧ n ≤ 255 ∧ ¬(c > 1 ∧ s.headD 'x' = '0') then some (n, s.drop c)
    else none

/-- Expect one dot separator between octet fields. -/
def expectDot : List Char → Option (List Char)
  | '.' :: rest => some rest
  | _ => none

/-- Models Go's parseIPv4: four dot-separated octets consuming the whole
string; result is the 32-bit address value. -/
def parseIPv4 (s : List Char) : Option Nat := do
  let (o1, r1) ← parseOctet s
  let r1b ← expectDot r1
  let (o2, r2) ← parseOctet r1b
  let r2b ← expectDot r2
  let (o3, r3) ← parseOctet r2b
  let r3b ← expectDot r3
  let (o4, r4) ← parseOctet r3b
  if r4 = [] then some (((o1 * 256 + o2) * 256 + o3) * 256 + o4) else none

/-- Split a character list at the first slash. -/
def splitSlash : List Char → Option (List Char × List Char)
  | [] => none
  | c :: rest =>
    if c = '/' then some ([], rest)
    else match splitSlash rest with
      | none => none
      | some (a, b) => some (c :: a, b)

/-- Models iplib.ParseCIDR (via Go net.ParseCIDR) restricted to IPv4,
returning the Net value whose address is the literal address masked with
the n-bit mask. -/
def parseCIDR (s : String) : Option Network :=
  match splitSlash s.toList with
  | none => none
  | some (a, m) =>
    match parseIPv4 a with
    | none => none
    | some ip =>
      match dtoi m with
      | (n, i, ok) =>
        if ok ∧ i = m.length ∧ n ≤ 32 then some ⟨maskA n ip, n⟩ else none

/-- Models getNetsFromString without its final sort: parse each token,
stopping at the first failure with the error message the Go code builds. -/
def parseAll : List String → Except String (List Network)
  | [] => .ok []
  | s :: rest =>
    match parseCIDR s with
    | none => .error ("Bad IP network value: <" ++ s ++ ">")
    | some n =>
      match parseAll rest with
      | .error e => .error e
      | .ok l => .ok (n :: l)

/-- Models getNetsFromString: parse every token, then sort by the ByNet
order.  The Go function returns a partial list together with the error;
its caller discards the list when the error is non-nil, which Except
captures. -/
def getNetsFromString (strs : List String) : Except String (List Network) :=
  match parseAll strs with
  | .error e => .error e
  | .ok l => .ok (sortNets l)

/-- Whitespace test matching Go strings.TrimSpace emptiness for the ASCII
whitespace characters (space, tab, newline, vertical tab, form feed,
carriage return). -/
def isSpaceChar (c : Char) : Bool :=
  c = ' ' ∨ c = '\t' ∨ c = '\n' ∨ c = '\x0b' ∨ c = '\x0c' ∨ c = '\r'

/-- True when the string trims to empty, i.e. every character is
whitespace. -/
def isBlank (s : String) : Bool := s.toList.all isSpaceChar

/-- Models deduplicate.  The Go version copies the strings through a map
and back, so its output order is unspecified; since parsing is order-
independent up to permutation and a sort follows, we use the first-
occurrence order. -/
def deduplicate (l : List String) : List String := l.eraseDups

/-- Models getNetsFromInput.  File contents are modelled by the list of
lines the bufio.Scanner would yield (the file-open error path is I/O and
is not modelled).  Note the filtered token list is returned with a nil
error even when it is empty. -/
def getNetsFromInput (str path : String) (fileLines : List String) :
    Except String (List String) :=
  if isBlank str ∧ isBlank path then
    .error "No input defined. Choose string or file input"
  else if ¬isBlank str ∧ ¬isBlank path then
    .error "Both input options can not be used at the same time"
  else
    let list := if ¬isBlank str then str.splitOn " " else fileLines
    .ok (deduplicate (list.filter fun s => !isBlank s))

/-- Models main up to printing: select input, parse, aggregate.  Errors
abort with exit code 1 before any aggregation. -/
def runMain (str path : String) (fileLines : List String) :
    Except String (List Network) :=
  match getNetsFromInput str path fileLines with
  | .error e => .error e
  | .ok tokens =>
    match getNetsFromString tokens with
    | .error e => .error e
    | .ok nets => .ok (aggregateNetworks nets)

/-!
## Separation and laminarity of CIDR blocks
-/

/-- a's address range ends at or before b's begins. -/
def SepN (a b : Network) : Prop := a.addr + sz a ≤ b.addr

/-- The lists flowing through absorb and merge: well-formed values in
strictly separated ascending order. -/
def Good (l : List Network) : Prop := (∀ n ∈ l, normal n) ∧ l.Chain' SepN

lemma sep_trans : Transitive SepN := by
  intro a b c h1 h2
  have := sz_pos b
  unfold SepN at *
  omega

lemma containsNet_true_iff (a b : Network) :
    containsNet a b = true ↔ a.plen ≤ b.plen ∧ maskA a.plen b.addr = a.addr := by
  simp [containsNet]

lemma range_subset_of_contains {a b : Network} (ha : normal a) (hb : normal b)
    (h : containsNet a b = true) : ∀ x, inR b x → inR a x := by
  rw [containsNet_true_iff] at h
  intro x hx
  rw [inR_iff_maskA hb] at hx
  rw [inR_iff_maskA ha, ← maskA_maskA h.1 x, hx, h.2]

lemma contains_of_laminar {a b : Network} (ha : normal a) (hb : normal b)
    (hpl : a.plen ≤ b.plen) {x : Nat} (hxa : inR a x) (hxb : inR b x) :
    containsNet a b = true := by
  rw [containsNet_true_iff]
  rw [inR_iff_maskA ha] at hxa
  rw [inR_iff_maskA hb] at hxb
  exact ⟨hpl, by rw [← hxb, maskA_maskA hpl, hxa]⟩

lemma inR_self (n : Network) : inR n n.addr := ⟨le_refl _, by have := sz_pos n; omega⟩

lemma addr_le_of_contains {a b : Network} (h : containsNet a b = true) :
    a.addr ≤ b.addr := by
  rw [containsNet_true_iff] at h
  exact h.2 ▸ maskA_le _ _

/-- Sorted order plus non-containment forces disjoint separation: the key
geometric fact behind the absorb phase. -/
lemma sep_of_le_not_contains {a b : Network} (ha : normal a) (hb : normal b)
    (hle : netLE a b) (hc : containsNet a b = false) : SepN a b := by
  by_contra hsep
  unfold SepN at hsep
  have haddr : a.addr ≤ b.addr := by unfold netLE at hle; omega
  have hxa : inR a b.addr := ⟨haddr, by omega⟩
  rcases le_or_lt a.plen b.plen with hpl | hpl
  · rw [contains_of_laminar ha hb hpl hxa (inR_self b)] at hc
    cases hc
  · have h2 : containsNet b a = true :=
      contains_of_laminar hb ha (by omega) (inR_self b) hxa
    have hba : b.addr ≤ a.addr := addr_le_of_contains h2
    have heq : a.addr = b.addr := by omega
    have : a.plen ≤ b.plen := by unfold netLE at hle; omega
    omega

lemma not_contains_of_sep {a b : Network} (h : SepN a b) (ha : normal a) :
    containsNet a b = false ∧ containsNet b a = false := by
  unfold SepN at h
  have hsa := sz_pos a
  constructor
  · by_contra hc
    have hc2 : containsNet a b = true := by
      cases hcb : containsNet a b
      · exact absurd hcb hc
      · rfl
    rw [containsNet_true_iff] at hc2
    have : a.addr ≤ b.addr := hc2.2 ▸ maskA_le _ _
    have hin : inR a b.addr := (inR_iff_maskA ha b.addr).mpr hc2.2
    unfold inR at hin
    omega
  · by_contra hc
    have hc2 : containsNet b a = true := by
      cases hcb : containsNet b a
      · exact absurd hcb hc
      · rfl
    have := addr_le_of_contains hc2
    omega

/-!
## Supernet geometry
-/

lemma supernetClosest_def_pos {n : Network} (h : 1 ≤ n.plen) :
    supernetClosest n = ⟨maskA (n.plen - 1) n.addr, n.plen - 1⟩ := by
  unfold supernetClosest
  rw [if_neg (by omega)]

lemma supernetClosest_normal {n : Network} (hn : normal n) :
    normal (supernetClosest n) := by
  obtain ⟨h32, hlt, hmask⟩ := hn
  unfold supernetClosest
  split
  · refine ⟨Nat.zero_le _, ?_, by unfold maskA; simp⟩
    show (0 : Nat) < 2 ^ 32
    positivity
  · refine ⟨?_, maskA_lt hlt, maskA_maskA (le_refl _) _⟩
    show n.plen - 1 ≤ 32
    omega

lemma sz_supernetClosest {n : Network} (h32 : n.plen ≤ 32) (h : 1 ≤ n.plen) :
    sz (supernetClosest n) = 2 * sz n := by
  rw [supernetClosest_def_pos h]
  unfold sz
  have : 32 - (n.plen - 1) = (32 - n.plen) + 1 := by omega
  simp only [this, pow_succ]
  ring

lemma dvd_mod_two_mul {s a : Nat} (hs : 0 < s) (h : s ∣ a) :
    a % (2 * s) = 0 ∨ a % (2 * s) = s := by
  obtain ⟨k, hk⟩ := h
  rcases Nat.even_or_odd k with ⟨m, hm⟩ | ⟨m, hm⟩
  · left
    subst hk hm
    have : s * (m + m) = (2 * s) * m := by ring
    rw [this]
    exact Nat.mul_mod_right _ _
  · right
    subst hk hm
    have : s * (2 * m + 1) = 2 * s * m + s := by ring
    rw [this, Nat.mul_add_mod]
    exact Nat.mod_eq_of_lt (by omega)

lemma maskA_as_sub (p a : Nat) : maskA p a = a - a % 2 ^ (32 - p) := by
  have h := Nat.div_add_mod a (2 ^ (32 - p))
  rw [Nat.mul_comm] at h
  unfold maskA
  omega

/-- A well-formed network is the lower or the upper child of its closest
supernet. -/
lemma child_cases {n : Network} (hn : normal n) (h1 : 1 ≤ n.plen) :
    n.addr = (supernetClosest n).addr ∨
      n.addr = (supernetClosest n).addr + sz n := by
  obtain ⟨h32, hlt, hmask⟩ := hn
  rw [supernetClosest_def_pos h1]
  simp only
  rw [maskA_as_sub]
  have hdvd : 2 ^ (32 - n.plen) ∣ n.addr := hmask ▸ maskA_dvd _ _
  have hexp : 2 ^ (32 - (n.plen - 1)) = 2 * 2 ^ (32 - n.plen) := by
    have : 32 - (n.plen - 1) = (32 - n.plen) + 1 := by omega
    rw [this, pow_succ]
    ring
  rw [hexp]
  have hsz : sz n = 2 ^ (32 - n.plen) := rfl
  have hmod := dvd_mod_two_mul (Nat.pos_pow_of_pos _ (by omega)) hdvd
  have hmodle : n.addr % (2 * 2 ^ (32 - n.plen)) ≤ n.addr := Nat.mod_le _ _
  rcases hmod with hmod | hmod <;> rw [hsz] <;> omega

/-- The two children of a shared closest supernet that appear in
separated order: the first is the aligned lower child, the second starts
exactly where the first ends, and the supernet's range is exactly their
union. -/
lemma sibling_pair {a b : Network} (ha : normal a) (hb : normal b)
    (h1 : 1 ≤ a.plen) (hpl : a.plen = b.plen)
    (hsup : supernetClosest a = supernetClosest b) (hsep : SepN a b) :
    b.addr = a.addr + sz a ∧ (supernetClosest a).addr = a.addr ∧
      ∀ x, inR (supernetClosest a) x ↔ (inR a x ∨ inR b x) := by
  have hszab : sz b = sz a := by unfold sz; rw [hpl]
  have hca := child_cases ha h1
  have hcb := child_cases hb (by omega)
  rw [← hsup] at hcb
  rw [hszab] at hcb
  unfold SepN at hsep
  have hsza := sz_pos a
  have hS : sz (supernetClosest a) = 2 * sz a := sz_supernetClosest ha.1 h1
  have hb2 : b.addr = a.addr + sz a := by omega
  have hSa : (supernetClosest a).addr = a.addr := by omega
  refine ⟨hb2, hSa, fun x => ?_⟩
  unfold inR
  rw [hS, hSa, hb2, hszab]
  omega

/-!
## Coverage and list helpers
-/

lemma covered_append (l1 l2 : List Network) (x : Nat) :
    covered (l1 ++ l2) x ↔ covered l1 x ∨ covered l2 x := by
  unfold covered
  constructor
  · rintro ⟨n, hn, hx⟩
    rcases List.mem_append.mp hn with h | h
    · exact Or.inl ⟨n, h, hx⟩
    · exact Or.inr ⟨n, h, hx⟩
  · rintro (⟨n, hn, hx⟩ | ⟨n, hn, hx⟩)
    · exact ⟨n, List.mem_append.mpr (Or.inl hn), hx⟩
    · exact ⟨n, List.mem_append.mpr (Or.inr hn), hx⟩

lemma covered_cons (n : Network) (l : List Network) (x : Nat) :
    covered (n :: l) x ↔ inR n x ∨ covered l x := by
  unfold covered
  constructor
  · rintro ⟨m, hm, hx⟩
    rcases List.mem_cons.mp hm with h | h
    · exact Or.inl (h ▸ hx)
    · exact Or.inr ⟨m, h, hx⟩
  · rintro (hx | ⟨m, hm, hx⟩)
    · exact ⟨n, List.mem_cons_self _ _, hx⟩
    · exact ⟨m, List.mem_cons_of_mem _ hm, hx⟩

lemma covered_nil (x : Nat) : ¬ covered [] x := by
  rintro ⟨n, hn, _⟩
  cases hn

lemma mem_of_getLast?_eq {l : List Network} {a : Network}
    (h : l.getLast? = some a) : a ∈ l := by
  obtain ⟨hne, heq⟩ := List.mem_getLast?_eq_getLast (show a ∈ l.getLast? from h)
  rw [heq]
  exact List.getLast_mem hne

/-!
## The absorb phase
-/

/-- Master induction for the absorb fold: from a well-separated
accumulator whose last element is the running candidate supernet, and a
ByNet-sorted remainder, absorption keeps separation, loses no coverage
and adds none, and never lengthens the list beyond the consumed input. -/
lemma absorbFold_spec (rest : List Network) :
    ∀ absorbed superNet,
      absorbed ≠ [] →
      absorbed.getLast? = some superNet →
      Good absorbed →
      List.Chain' netLE (superNet :: rest) →
      (∀ n ∈ rest, normal n) →
      Good (absorbFold rest absorbed superNet) ∧
        absorbFold rest absorbed superNet ≠ [] ∧
        (∀ x, covered (absorbFold rest absorbed superNet) x ↔
          (covered absorbed x ∨ covered rest x)) ∧
        (absorbFold rest absorbed superNet).length ≤
          absorbed.length + rest.length := by
  induction rest with
  | nil =>
    intro absorbed superNet h1 h2 h3 _ _
    exact ⟨h3, h1, fun x => by simp [absorbFold, covered_nil], by
      simp [absorbFold]⟩
  | cons net rest ih =>
    intro absorbed superNet h1 h2 h3 h4 h5
    have hle : netLE superNet net := (List.chain'_cons.mp h4).1
    have hrest : List.Chain' netLE (net :: rest) := (List.chain'_cons.mp h4).2
    have hnet : normal net := h5 net (List.mem_cons_self _ _)
    have hsup_mem : superNet ∈ absorbed := mem_of_getLast?_eq h2
    have hsup_norm : normal superNet := h3.1 _ hsup_mem
    rw [absorbFold]
    by_cases hc : containsNet superNet net = false
    · simp only [largeNetsAbsorbSmall, if_pos hc]
      have hsep : SepN superNet net :=
        sep_of_le_not_contains hsup_norm hnet hle hc
      have hgood : Good (absorbed ++ [net]) := by
        constructor
        · intro n hn
          rcases List.mem_append.mp hn with h | h
          · exact h3.1 n h
          · rcases List.mem_singleton.mp h with rfl
            exact hnet
        · rw [List.chain'_append]
          refine ⟨h3.2, List.chain'_singleton _, ?_⟩
          intro x hx y hy
          rw [h2] at hx
          cases hx
          cases hy
          exact hsep
      obtain ⟨ga, na, ca, la⟩ := ih (absorbed ++ [net]) net
        (by simp) (getLast?_append_one _ _) hgood hrest
        (fun n hn => h5 n (List.mem_cons_of_mem _ hn))
      refine ⟨ga, na, fun x => ?_, by simp at la ⊢; omega⟩
      rw [ca x, covered_append, covered_cons]
      simp only [covered_cons, covered_nil, or_false]
      tauto
    · simp only [largeNetsAbsorbSmall, if_neg hc]
      have hctrue : containsNet superNet net = true := by
        cases h : containsNet superNet net
        · exact absurd h hc
        · rfl
      have hchain : List.Chain' netLE (superNet :: rest) := by
        cases rest with
        | nil => exact List.chain'_singleton _
        | cons c t =>
          exact List.chain'_cons.mpr
            ⟨Trans.trans hle (List.chain'_cons.mp hrest).1,
              (List.chain'_cons.mp hrest).2⟩
      obtain ⟨ga, na, ca, la⟩ := ih absorbed superNet h1 h2 h3 hchain
        (fun n hn => h5 n (List.mem_cons_of_mem _ hn))
      refine ⟨ga, na, fun x => ?_, by simp at la ⊢; omega⟩
      rw [ca x, covered_cons]
      have himp : inR net x → covered absorbed x := fun hx =>
        ⟨superNet, hsup_mem, range_subset_of_contains hsup_norm hnet hctrue x hx⟩
      tauto

/-- The absorb phase of aggregateNetworks on a sorted list of well-formed
networks: output is well-separated, non-empty for non-empty input, covers
exactly the input, and is no longer than the input. -/
lemma absorbRun_spec (nets : List Network) (hn : ∀ n ∈ nets, normal n)
    (hs : List.Chain' netLE nets) :
    Good (absorbRun nets) ∧ (nets ≠ [] → absorbRun nets ≠ []) ∧
      (∀ x, covered (absorbRun nets) x ↔ covered nets x) ∧
      (absorbRun nets).length ≤ nets.length := by
  cases nets with
  | nil =>
    exact ⟨⟨(fun n hmem => absurd hmem (List.not_mem_nil n)), List.chain'_nil⟩,
      by simp [absorbRun], fun x => Iff.rfl, by simp [absorbRun]⟩
  | cons n0 rest =>
    have hn0 : normal n0 := hn n0 (List.mem_cons_self _ _)
    have hgood0 : Good [n0] := by
      refine ⟨fun n hmem => ?_, List.chain'_singleton _⟩
      rcases List.mem_singleton.mp hmem with rfl
      exact hn0
    obtain ⟨ga, na, ca, la⟩ := absorbFold_spec rest [n0] n0 (by simp) rfl
      hgood0 hs (fun n hmem => hn n (List.mem_cons_of_mem _ hmem))
    refine ⟨ga, fun _ => na, fun x => ?_, by simp only [absorbRun, List.length_cons]; simp at la; omega⟩
    show covered (absorbFold rest [n0] n0) x ↔ covered (n0 :: rest) x
    rw [ca x, covered_cons]
    simp only [covered_cons, covered_nil, or_false]

/-- On an already well-separated list nothing is contained in anything
earlier, so the absorb fold is the identity (it appends every element). -/
lemma absorbFold_id (rest : List Network) :
    ∀ absorbed superNet, absorbed.getLast? = some superNet →
      (∀ n ∈ absorbed, normal n) → (∀ n ∈ rest, normal n) →
      List.Chain' SepN (superNet :: rest) →
      absorbFold rest absorbed superNet = absorbed ++ rest := by
  induction rest with
  | nil => intro absorbed superNet _ _ _ _; simp [absorbFold]
  | cons net rest ih =>
    intro absorbed superNet hlast hnorm hrest hchain
    have hsep : SepN superNet net := (List.chain'_cons.mp hchain).1
    have hsn : normal superNet := hnorm _ (mem_of_getLast?_eq hlast)
    have hc : containsNet superNet net = false := (not_contains_of_sep hsep hsn).1
    rw [absorbFold]
    simp only [largeNetsAbsorbSmall, if_pos hc]
    rw [ih (absorbed ++ [net]) net (getLast?_append_one _ _) ?_ ?_ ?_]
    · simp
    · intro n hmem
      rcases List.mem_append.mp hmem with h | h
      · exact hnorm n h
      · rcases List.mem_singleton.mp h with rfl
        exact hrest _ (List.mem_cons_self _ _)
    · exact fun n hmem => hrest n (List.mem_cons_of_mem _ hmem)
    · exact (List.chain'_cons.mp hchain).2

/-- The absorb phase is the identity on a well-separated list. -/
lemma absorbRun_id {l : List Network} (hg : Good l) : absorbRun l = l := by
  cases l with
  | nil => rfl
  | cons n0 rest =>
    rw [absorbRun, absorbFold_id rest [n0] n0 rfl]
    · rfl
    · intro n hmem
      rcases List.mem_singleton.mp hmem with rfl
      exact hg.1 _ (List.mem_cons_self _ _)
    · exact fun n hmem => hg.1 n (List.mem_cons_of_mem _ hmem)
    · exact hg.2

/-- When the running candidate contains every remaining network, the
absorb fold drops all of them. -/
lemma absorbFold_all_contained (rest : List Network) :
    ∀ absorbed superNet, (∀ n ∈ rest, containsNet superNet n = true) →
      absorbFold rest absorbed superNet = absorbed := by
  induction rest with
  | nil => intro absorbed superNet _; rfl
  | cons net rest ih =>
    intro absorbed superNet hcon
    have hc : containsNet superNet net = true := hcon net (List.mem_cons_self _ _)
    rw [absorbFold]
    simp only [largeNetsAbsorbSmall, hc]
    rw [if_neg (by simp)]
    exact ih absorbed superNet fun n hmem => hcon n (List.mem_cons_of_mem _ hmem)

instance : IsTrans Network SepN := ⟨fun _ _ _ h1 h2 => sep_trans h1 h2⟩

/-- In a well-separated list of at least two networks every element in it
has positive mask size: a 0-bit mask covers the whole space and can have
no disjoint neighbour. -/
lemma chain'_neighbor (R : Network → Network → Prop) :
    ∀ {l : List Network} {a : Network}, List.Chain' R l → a ∈ l →
      2 ≤ l.length → ∃ b ∈ l, R a b ∨ R b a
  | [], a, _, hmem, _ => absurd hmem (List.not_mem_nil a)
  | [_], _, _, _, hlen => by simp at hlen
  | x :: y :: t, a, hc, hmem, _ => by
    have hxy : R x y := (List.chain'_cons.mp hc).1
    rcases List.mem_cons.mp hmem with rfl | hmem2
    · exact ⟨y, List.mem_cons_of_mem _ (List.mem_cons_self _ _), Or.inl hxy⟩
    · rcases List.mem_cons.mp hmem2 with rfl | hmem3
      · exact ⟨x, List.mem_cons_self _ _, Or.inr hxy⟩
      · have hlen2 : 2 ≤ (y :: t).length := by
          have := List.ne_nil_of_mem hmem3
          cases t with
          | nil => exact absurd rfl this
          | cons _ _ => simp
        obtain ⟨b, hb, hrel⟩ := chain'_neighbor R (List.chain'_cons.mp hc).2
          (List.mem_cons_of_mem _ hmem3) hlen2
        exact ⟨b, List.mem_cons_of_mem _ hb, hrel⟩

lemma plen_zero_addr_zero {n : Network} (hn : normal n) (hp : n.plen = 0) :
    n.addr = 0 := by
  have hmask := hn.2.2
  have hdiv : n.addr / 2 ^ (32 - n.plen) = 0 := by
    apply Nat.div_eq_of_lt
    rw [hp]
    exact hn.2.1
  unfold maskA at hmask
  rw [hdiv] at hmask
  simpa using hmask.symm

lemma good_plen_pos {l : List Network} (hg : Good l) (hlen : 2 ≤ l.length) :
    ∀ n ∈ l, 1 ≤ n.plen := by
  intro n hmem
  by_contra h0
  have hp : n.plen = 0 := by omega
  have hnorm := hg.1 n hmem
  have haddr : n.addr = 0 := plen_zero_addr_zero hnorm hp
  have hsz : sz n = 2 ^ 32 := by unfold sz; rw [hp]
  obtain ⟨b, hb, hrel⟩ := chain'_neighbor SepN hg.2 hmem hlen
  have hbnorm := hg.1 b hb
  have hbpos := sz_pos b
  rcases hrel with h | h
  · unfold SepN at h
    have := hbnorm.2.1
    omega
  · unfold SepN at h
    omega

lemma pairwise_sep_cases {l : List Network} (hp : List.Pairwise SepN l) :
    ∀ a ∈ l, ∀ b ∈ l, a = b ∨ SepN a b ∨ SepN b a := by
  induction hp with
  | nil => intro a ha; exact absurd ha (List.not_mem_nil a)
  | @cons c t hrel _ ih =>
    intro a ha b hb
    rcases List.mem_cons.mp ha with rfl | ha2
    · rcases List.mem_cons.mp hb with rfl | hb2
      · exact Or.inl rfl
      · exact Or.inr (Or.inl (hrel b hb2))
    · rcases List.mem_cons.mp hb with rfl | hb2
      · exact Or.inr (Or.inr (hrel a ha2))
      · exact ih a ha2 b hb2

/-- Pairwise non-containment of a well-separated list: the separated
blocks are pairwise disjoint, and a contained network would overlap its
container. -/
lemma good_no_contains {l : List Network} (hg : Good l) :
    ∀ a ∈ l, ∀ b ∈ l, a ≠ b → containsNet a b = false := by
  intro a ha b hb hne
  have hp : List.Pairwise SepN l := List.chain'_iff_pairwise.mp hg.2
  rcases pairwise_sep_cases hp a ha b hb with rfl | h | h
  · exact absurd rfl hne
  · exact (not_contains_of_sep h (hg.1 a ha)).1
  · exact (not_contains_of_sep h (hg.1 b hb)).2

/-!
## The merge pass invariant

One pass is a fold of smallMergedToLarge.  MState records the state
invariant between steps: the accumulator is well-formed and separated,
its adjacent mergeable pairs are strictly below the bound M, and its last
element is either the running net1 itself (after a non-merging step) or
the just-emitted supernet of net1 (after a merging step, in which case
net1 is the upper child of that supernet).
-/

/-- Every adjacent pair of the list satisfying the merge condition has
mask size at most M. -/
def PairsLE (l : List Network) (M : Nat) : Prop :=
  List.Chain' (fun u v => mergeOK u v → u.plen ≤ M) l

/-- Every adjacent pair of the list satisfying the merge condition has
mask size strictly below M. -/
def PairsLT (l : List Network) (M : Nat) : Prop :=
  List.Chain' (fun u v => mergeOK u v → u.plen < M) l

lemma supernetClosest_plen {n : Network} (h : 1 ≤ n.plen) :
    (supernetClosest n).plen = n.plen - 1 := by
  rw [supernetClosest_def_pos h]

/-- The fold-state invariant of one merge pass. -/
def MState (M : Nat) (acc : List Network) (net1 : Network) : Prop :=
  (∀ n ∈ acc, normal n) ∧ List.Chain' SepN acc ∧ PairsLT acc M ∧
    normal net1 ∧ 1 ≤ net1.plen ∧
    (acc.getLast? = some net1 ∨
      (acc.getLast? = some (supernetClosest net1) ∧
        net1.addr = (supernetClosest net1).addr + sz net1 ∧ net1.plen ≤ M))

lemma mstate_last_end {M : Nat} {acc : List Network} {net1 : Network}
    (h : MState M acc net1) :
    ∃ t, acc.getLast? = some t ∧ t.addr + sz t = net1.addr + sz net1 := by
  obtain ⟨-, -, -, hnorm1, hp1, hlast⟩ := h
  rcases hlast with hlast | ⟨hlast, haddr, -⟩
  · exact ⟨net1, hlast, rfl⟩
  · refine ⟨supernetClosest net1, hlast, ?_⟩
    have hsz : sz (supernetClosest net1) = 2 * sz net1 :=
      sz_supernetClosest hnorm1.1 hp1
    omega

lemma mstate_ne_nil {M : Nat} {acc : List Network} {net1 : Network}
    (h : MState M acc net1) : acc ≠ [] := by
  intro he
  rcases h.2.2.2.2.2 with hl | ⟨hl, -, -⟩ <;> rw [he] at hl <;> cases hl

/-- A merging step from a valid state: the state's last element must be
net1 itself, it is replaced by the shared supernet, and the new state
records net2 as the upper child of that supernet. -/
lemma stepMerge {M : Nat} {acc : List Network} {net1 net2 : Network}
    (hst : MState M acc net1) (hn2 : normal net2) (hp2 : 1 ≤ net2.plen)
    (hsep : SepN net1 net2) (hOK : mergeOK net1 net2)
    (hbound : net1.plen ≤ M) :
    (smallMergedToLarge acc net1 net2).1 =
        acc.dropLast ++ [supernetClosest net1] ∧
      MState M (smallMergedToLarge acc net1 net2).1 net2 ∧
      (∀ x, covered (smallMergedToLarge acc net1 net2).1 x ↔
        (covered acc x ∨ inR net2 x)) ∧
      (smallMergedToLarge acc net1 net2).1.length = acc.length := by
  obtain ⟨hnorm, hchain, hpairs, hnorm1, hp1, hlast⟩ := hst
  have hne : acc ≠ [] := mstate_ne_nil ⟨hnorm, hchain, hpairs, hnorm1, hp1, hlast⟩
  obtain ⟨hb2, hSa, hranges⟩ :=
    sibling_pair hnorm1 hn2 hp1 hOK.1 hOK.2 hsep
  -- the state's last element is net1, not the supernet
  have hlast1 : acc.getLast? = some net1 := by
    rcases hlast with h | ⟨h, haddr, -⟩
    · exact h
    · exfalso
      have := sz_pos net1
      omega
  have hsplit : acc.dropLast ++ [net1] = acc :=
    List.dropLast_append_getLast? net1 hlast1
  have heq1 : (smallMergedToLarge acc net1 net2).1 =
      acc.dropLast ++ [supernetClosest net1] := by
    rw [smallMergedToLarge_eq, if_pos hOK]
    simp only
    rw [if_pos ⟨by simpa using hne, (lastIsNotGiven_one acc net1).mpr hlast1⟩]
  have hSn : normal (supernetClosest net1) := supernetClosest_normal hnorm1
  have hSplen : (supernetClosest net1).plen = net1.plen - 1 :=
    supernetClosest_plen hp1
  -- chain and pair facts about the dropLast prefix
  have hchain2 : List.Chain' SepN (acc.dropLast ++ [net1]) := by
    rw [hsplit]; exact hchain
  have hpairs2 : PairsLT (acc.dropLast ++ [net1]) M := by
    rw [PairsLT, hsplit]; exact hpairs
  rw [List.chain'_append] at hchain2
  rw [PairsLT, List.chain'_append] at hpairs2
  have hchainS : List.Chain' SepN (acc.dropLast ++ [supernetClosest net1]) := by
    rw [List.chain'_append]
    refine ⟨hchain2.1, List.chain'_singleton _, ?_⟩
    intro x hx y hy
    cases hy
    have := hchain2.2.2 x hx net1 rfl
    unfold SepN at *
    omega
  have hpairsS : PairsLT (acc.dropLast ++ [supernetClosest net1]) M := by
    rw [PairsLT, List.chain'_append]
    refine ⟨hpairs2.1, List.chain'_singleton _, ?_⟩
    intro x hx y hy hOKx
    cases hy
    have := hOKx.1
    omega
  have hcov : ∀ x, covered (acc.dropLast ++ [supernetClosest net1]) x ↔
      (covered acc x ∨ inR net2 x) := by
    intro x
    rw [covered_append, covered_cons]
    conv_rhs => rw [← hsplit]
    rw [covered_append, covered_cons]
    simp only [covered_nil, or_false]
    have := hranges x
    tauto
  rw [heq1]
  refine ⟨rfl, ⟨?_, hchainS, hpairsS, hn2, hp2, Or.inr ⟨?_, ?_, ?_⟩⟩, hcov, ?_⟩
  · intro n hmem
    rcases List.mem_append.mp hmem with h | h
    · exact hnorm n (by rw [← hsplit]; exact List.mem_append.mpr (Or.inl h))
    · rcases List.mem_singleton.mp h with rfl
      exact hSn
  · rw [getLast?_append_one, hOK.2]
  · rw [← hOK.2, hSa, hb2]
    have : sz net2 = sz net1 := by unfold sz; rw [hOK.1]
    omega
  · omega
  · rw [List.length_append, List.length_dropLast]
    simp only [List.length_cons, List.length_nil]
    have : 1 ≤ acc.length := by
      cases acc with
      | nil => exact absurd rfl hne
      | cons _ _ => simp
    omega

/-- A non-merging step from a valid state: net1 is already the last
element written (or was just merged away into its supernet, which is the
last element), so only net2 is appended. -/
lemma stepNonMerge {M : Nat} {acc : List Network} {net1 net2 : Network}
    (hst : MState M acc net1) (hn2 : normal net2) (hp2 : 1 ≤ net2.plen)
    (hsep : SepN net1 net2) (hnOK : ¬ mergeOK net1 net2) :
    (smallMergedToLarge acc net1 net2).1 = acc ++ [net2] ∧
      MState M (smallMergedToLarge acc net1 net2).1 net2 ∧
      (∀ x, covered (smallMergedToLarge acc net1 net2).1 x ↔
        (covered acc x ∨ inR net2 x)) ∧
      (smallMergedToLarge acc net1 net2).1.length = acc.length + 1 := by
  obtain ⟨hnorm, hchain, hpairs, hnorm1, hp1, hlast⟩ := hst
  have hne : acc ≠ [] :=
    mstate_ne_nil ⟨hnorm, hchain, hpairs, hnorm1, hp1, hlast⟩
  have hlg : lastIsNotGiven acc [net1, supernetClosest net1] = false := by
    cases hb : lastIsNotGiven acc [net1, supernetClosest net1]
    · rfl
    · exfalso
      obtain ⟨ha, hb2⟩ := (lastIsNotGiven_two acc net1 (supernetClosest net1)).mp hb
      rcases hlast with h | ⟨h, -, -⟩
      · exact ha h
      · exact hb2 h
  have heq1 : (smallMergedToLarge acc net1 net2).1 = acc ++ [net2] := by
    rw [smallMergedToLarge_eq, if_neg hnOK]
    simp only
    rw [if_neg (by simpa using hne), if_neg (by rw [hlg]; simp)]
  obtain ⟨t, hlt, hend⟩ :=
    mstate_last_end ⟨hnorm, hchain, hpairs, hnorm1, hp1, hlast⟩
  have hsep2 : SepN t net2 := by
    unfold SepN at *
    omega
  have hchainS : List.Chain' SepN (acc ++ [net2]) := by
    rw [List.chain'_append]
    refine ⟨hchain, List.chain'_singleton _, ?_⟩
    intro x hx y hy
    cases hy
    rw [hlt] at hx
    cases hx
    exact hsep2
  have hpairsS : PairsLT (acc ++ [net2]) M := by
    rw [PairsLT, List.chain'_append]
    refine ⟨hpairs, List.chain'_singleton _, ?_⟩
    intro x hx y hy hOKx
    cases hy
    rw [hlt] at hx
    cases hx
    rcases hlast with h | ⟨h, -, hbM⟩
    · rw [hlt] at h
      cases h
      exact absurd hOKx hnOK
    · rw [hlt] at h
      cases h
      have := supernetClosest_plen hp1
      omega
  rw [heq1]
  refine ⟨rfl, ⟨?_, hchainS, hpairsS, hn2, hp2, Or.inl (getLast?_append_one _ _)⟩,
    fun x => ?_, by simp⟩
  · intro n hmem
    rcases List.mem_append.mp hmem with h | h
    · exact hnorm n h
    · rcases List.mem_singleton.mp h with rfl
      exact hn2
  · rw [covered_append, covered_cons]
    simp only [covered_nil, or_false]

/-- Master induction for one merge pass: folding smallMergedToLarge from
a valid state over a separated remainder yields a separated, well-formed
output whose adjacent mergeable pairs are strictly below the bound, with
exact coverage accounting, bounded length, and two rigidity facts: the
output has the maximal length only if it is literally the input, and a
pass over a list with no adjacent mergeable pair is the identity. -/
lemma mergeFold_spec (rest : List Network) :
    ∀ (M : Nat) (acc : List Network) (net1 : Network), MState M acc net1 →
      List.Chain' SepN (net1 :: rest) →
      (∀ n ∈ rest, normal n ∧ 1 ≤ n.plen) →
      PairsLE (net1 :: rest) M →
      (∀ n ∈ mergeFold acc net1 rest, normal n) ∧
        List.Chain' SepN (mergeFold acc net1 rest) ∧
        PairsLT (mergeFold acc net1 rest) M ∧
        mergeFold acc net1 rest ≠ [] ∧
        (∀ x, covered (mergeFold acc net1 rest) x ↔
          (covered acc x ∨ covered rest x)) ∧
        (mergeFold acc net1 rest).length ≤ acc.length + rest.length ∧
        ((mergeFold acc net1 rest).length = acc.length + rest.length →
          mergeFold acc net1 rest = acc ++ rest) ∧
        (List.Chain' (fun u v => ¬ mergeOK u v) (net1 :: rest) →
          mergeFold acc net1 rest = acc ++ rest) := by
  induction rest with
  | nil =>
    intro M acc net1 hst _ _ _
    have hne := mstate_ne_nil hst
    obtain ⟨hnorm, hchain, hpairs, -, -, -⟩ := hst
    refine ⟨hnorm, hchain, hpairs, hne, fun x => ?_, by simp [mergeFold],
      fun _ => by simp [mergeFold], fun _ => by simp [mergeFold]⟩
    simp only [mergeFold]
    have := covered_nil x
    tauto
  | cons net2 rest2 ih =>
    intro M acc net1 hst hchain hrest hple
    have hsep12 : SepN net1 net2 := (List.chain'_cons.mp hchain).1
    have hchain2 : List.Chain' SepN (net2 :: rest2) := (List.chain'_cons.mp hchain).2
    have hn2 : normal net2 ∧ 1 ≤ net2.plen := hrest net2 (List.mem_cons_self _ _)
    have hrest2 : ∀ n ∈ rest2, normal n ∧ 1 ≤ n.plen :=
      fun n hmem => hrest n (List.mem_cons_of_mem _ hmem)
    have hple2 : PairsLE (net2 :: rest2) M := (List.chain'_cons.mp hple).2
    rw [mergeFold, smallMergedToLarge_snd]
    by_cases hOK : mergeOK net1 net2
    · have hbound : net1.plen ≤ M := (List.chain'_cons.mp hple).1 hOK
      obtain ⟨heq, hst2, hcov, hlen⟩ :=
        stepMerge hst hn2.1 hn2.2 hsep12 hOK hbound
      obtain ⟨ra, rb, rc, rd, re, rf, rg, -⟩ :=
        ih M (smallMergedToLarge acc net1 net2).1 net2 hst2 hchain2 hrest2 hple2
      refine ⟨ra, rb, rc, rd, fun x => ?_, by simp only [List.length_cons]; omega,
        fun hcontra => ?_, fun hnc => ?_⟩
      · rw [re x, hcov x, covered_cons]
        tauto
      · exfalso
        simp only [List.length_cons] at hcontra
        omega
      · exact absurd hOK ((List.chain'_cons.mp hnc).1)
    · obtain ⟨heq, hst2, hcov, hlen⟩ :=
        stepNonMerge hst hn2.1 hn2.2 hsep12 hOK
      obtain ⟨ra, rb, rc, rd, re, rf, rg, rh⟩ :=
        ih M (smallMergedToLarge acc net1 net2).1 net2 hst2 hchain2 hrest2 hple2
      refine ⟨ra, rb, rc, rd, fun x => ?_, by simp only [List.length_cons]; omega,
        fun hlene => ?_, fun hnc => ?_⟩
      · rw [re x, hcov x, covered_cons]
        tauto
      · have : (mergeFold (smallMergedToLarge acc net1 net2).1 net2 rest2).length =
            (smallMergedToLarge acc net1 net2).1.length + rest2.length := by
          simp only [List.length_cons] at hlene
          omega
        rw [rg this, heq]
        simp
      · have h2 : List.Chain' (fun u v => ¬ mergeOK u v) (net2 :: rest2) :=
          (List.chain'_cons.mp hnc).2
        rw [rh h2, heq]
        simp

/-- One merge pass on a well-separated list of at least two networks:
separation, well-formedness and coverage are preserved, adjacent
mergeable pairs drop strictly below any previous bound, the output is
shorter unless it is literally the input, and a pass with nothing to
merge is the identity. -/
lemma mergePass_spec {l : List Network} (hg : Good l) (hlen : 2 ≤ l.length)
    (M : Nat) (hM : PairsLE l M) :
    Good (mergePass l) ∧ PairsLT (mergePass l) M ∧ mergePass l ≠ [] ∧
      (∀ x, covered (mergePass l) x ↔ covered l x) ∧
      (mergePass l).length ≤ l.length ∧
      ((mergePass l).length = l.length → mergePass l = l) ∧
      (List.Chain' (fun u v => ¬ mergeOK u v) l → mergePass l = l) := by
  match l, hlen with
  | net1 :: net2 :: rest2, _ =>
    have hplen := good_plen_pos hg (by simp)
    have hn1 : normal net1 := hg.1 _ (List.mem_cons_self _ _)
    have hn2 : normal net2 :=
      hg.1 _ (List.mem_cons_of_mem _ (List.mem_cons_self _ _))
    have hp1 : 1 ≤ net1.plen := hplen _ (List.mem_cons_self _ _)
    have hp2 : 1 ≤ net2.plen :=
      hplen _ (List.mem_cons_of_mem _ (List.mem_cons_self _ _))
    have hsep12 : SepN net1 net2 := (List.chain'_cons.mp hg.2).1
    have hchain2 : List.Chain' SepN (net2 :: rest2) := (List.chain'_cons.mp hg.2).2
    have hrest2 : ∀ n ∈ rest2, normal n ∧ 1 ≤ n.plen := fun n hmem =>
      ⟨hg.1 n (List.mem_cons_of_mem _ (List.mem_cons_of_mem _ hmem)),
        hplen n (List.mem_cons_of_mem _ (List.mem_cons_of_mem _ hmem))⟩
    have hple2 : PairsLE (net2 :: rest2) M := (List.chain'_cons.mp hM).2
    rw [mergePass, mergeFold, smallMergedToLarge_snd]
    by_cases hOK : mergeOK net1 net2
    · have hbound : net1.plen ≤ M := (List.chain'_cons.mp hM).1 hOK
      obtain ⟨hb2, hSa, hranges⟩ := sibling_pair hn1 hn2 hp1 hOK.1 hOK.2 hsep12
      have heq : (smallMergedToLarge [] net1 net2).1 = [supernetClosest net1] := by
        rw [smallMergedToLarge_eq, if_pos hOK]
        simp
      rw [heq]
      have hst2 : MState M [supernetClosest net1] net2 := by
        refine ⟨?_, List.chain'_singleton _, List.chain'_singleton _, hn2, hp2,
          Or.inr ⟨?_, ?_, ?_⟩⟩
        · intro n hmem
          rcases List.mem_singleton.mp hmem with rfl
          exact supernetClosest_normal hn1
        · rw [List.getLast?_singleton, hOK.2]
        · rw [← hOK.2, hSa, hb2]
          have : sz net2 = sz net1 := by unfold sz; rw [hOK.1]
          omega
        · omega
      obtain ⟨ra, rb, rc, rd, re, rf, rg, -⟩ :=
        mergeFold_spec rest2 M [supernetClosest net1] net2 hst2 hchain2
          hrest2 hple2
      refine ⟨⟨ra, rb⟩, rc, rd, fun x => ?_, ?_, fun hcontra => ?_, fun hnc => ?_⟩
      · rw [re x, covered_cons, covered_cons, covered_cons]
        simp only [covered_nil, or_false]
        have := hranges x
        tauto
      · simp only [List.length_cons, List.length_nil] at rf ⊢
        omega
      · exfalso
        simp only [List.length_cons, List.length_nil] at rf hcontra
        omega
      · exact absurd hOK (List.chain'_cons.mp hnc).1
    · have heq : (smallMergedToLarge [] net1 net2).1 = [net1, net2] := by
        rw [smallMergedToLarge_eq, if_neg hOK]
        simp
      rw [heq]
      have hst2 : MState M [net1, net2] net2 := by
        refine ⟨?_, ?_, ?_, hn2, hp2,
          Or.inl (show ([net1] ++ [net2]).getLast? = some net2 from
            getLast?_append_one _ _)⟩
        · intro n hmem
          rcases List.mem_cons.mp hmem with rfl | hmem2
          · exact hn1
          · rcases List.mem_singleton.mp hmem2 with rfl
            exact hn2
        · exact List.chain'_cons.mpr ⟨hsep12, List.chain'_singleton _⟩
        · exact List.chain'_cons.mpr ⟨fun h => absurd h hOK, List.chain'_singleton _⟩
      obtain ⟨ra, rb, rc, rd, re, rf, rg, rh⟩ :=
        mergeFold_spec rest2 M [net1, net2] net2 hst2 hchain2 hrest2 hple2
      refine ⟨⟨ra, rb⟩, rc, rd, fun x => ?_, ?_, fun hlene => ?_, fun hnc => ?_⟩
      · rw [re x, covered_cons, covered_cons, covered_cons, covered_cons]
        simp only [covered_nil, or_false]
        tauto
      · simp only [List.length_cons, List.length_nil] at rf ⊢
        omega
      · have hl2 : (mergeFold [net1, net2] net2 rest2).length =
            [net1, net2].length + rest2.length := by
          simp only [List.length_cons, List.length_nil] at hlene ⊢
          omega
        rw [rg hl2]
        simp
      · rw [rh (List.chain'_cons.mp hnc).2]
        simp

lemma pairsLT_to_LE {l : List Network} {M : Nat} (h : PairsLT l M) :
    PairsLE l M :=
  List.Chain'.imp (fun _ _ hab hOK => Nat.le_of_lt (hab hOK)) h

lemma pairsLT_succ_to_LE {l : List Network} {M : Nat} (h : PairsLT l (M + 1)) :
    PairsLE l M :=
  List.Chain'.imp (fun _ _ hab hOK => by have := hab hOK; omega) h

/-- The self-consistent merge loop preserves well-formedness, separation
and coverage, and its result is a singleton or a fixpoint of the pass. -/
lemma mergeLoopC_spec (k : Nat) :
    ∀ l, l.length ≤ k → Good l → 2 ≤ l.length → ∀ M, PairsLE l M →
      Good (mergeLoopC l) ∧
        (∀ x, covered (mergeLoopC l) x ↔ covered l x) ∧
        mergeLoopC l ≠ [] ∧
        ((mergeLoopC l).length = 1 ∨ mergePass (mergeLoopC l) = mergeLoopC l) := by
  induction k with
  | zero => intro l hlk _ hlen; omega
  | succ k ih =>
    intro l hlk hg hlen M hM
    obtain ⟨pg, plt, pne, pcov, plen, prig, -⟩ := mergePass_spec hg hlen M hM
    rw [mergeLoopC]
    split
    · rename_i h
      refine ⟨pg, pcov, pne, ?_⟩
      rcases h with h | h
      · right
        rw [prig h]
        exact prig h
      · exact Or.inl h
    · rename_i h
      push_neg at h
      have hout2 : 2 ≤ (mergePass l).length := by
        have h1 : 1 ≤ (mergePass l).length := by
          cases he : mergePass l with
          | nil => exact absurd he pne
          | cons _ _ => simp
        omega
      have houtlt : (mergePass l).length < l.length := by omega
      obtain ⟨ra, rb, rc, rd⟩ := ih (mergePass l) (by omega) pg hout2 M
        (pairsLT_to_LE plt)
      exact ⟨ra, fun x => (rb x).trans (pcov x), rc, rd⟩

lemma sep_ne {a b : Network} (h : SepN a b) : a ≠ b := by
  intro he
  subst he
  unfold SepN at h
  have := sz_pos a
  omega

lemma network_eq {a b : Network} (h1 : a.addr = b.addr) (h2 : a.plen = b.plen) :
    a = b := by
  cases a
  cases b
  simp_all

/-- If a well-separated list of length at least two has an adjacent
mergeable pair of mask size at most 1, the pair is the two halves of the
address space and the list consists exactly of them. -/
lemma plen_one_pair_structure {l : List Network} (hg : Good l)
    (hlen : 2 ≤ l.length) (hM : PairsLE l 1)
    (hne : ¬ List.Chain' (fun u v => ¬ mergeOK u v) l) :
    l = [⟨0, 1⟩, ⟨2 ^ 31, 1⟩] := by
  rw [List.chain'_iff_get] at hne
  push_neg at hne
  obtain ⟨i, hi, hOK⟩ := hne
  have hsep : SepN (l.get ⟨i, by omega⟩) (l.get ⟨i + 1, by omega⟩) :=
    (List.chain'_iff_get.mp hg.2) i hi
  have hb : (l.get ⟨i, by omega⟩).plen ≤ 1 :=
    (List.chain'_iff_get.mp hM) i hi hOK
  obtain ⟨u, v, humem, hvmem, hsep, hOKuv, hple⟩ :
      ∃ u v, u ∈ l ∧ v ∈ l ∧ SepN u v ∧ mergeOK u v ∧ u.plen ≤ 1 :=
    ⟨_, _, List.get_mem _ _ _, List.get_mem _ _ _, hsep, hOK, hb⟩
  have hnu : normal u := hg.1 u humem
  have hnv : normal v := hg.1 v hvmem
  have hpu : 1 ≤ u.plen := good_plen_pos hg hlen u humem
  have hpu1 : u.plen = 1 := by omega
  obtain ⟨hb2, hSa, -⟩ := sibling_pair hnu hnv hpu hOKuv.1 hOKuv.2 hsep
  have hSplen : (supernetClosest u).plen = 0 := by
    rw [supernetClosest_plen hpu, hpu1]
  have hSnormal : normal (supernetClosest u) := supernetClosest_normal hnu
  have hSaddr : (supernetClosest u).addr = 0 :=
    plen_zero_addr_zero hSnormal hSplen
  have huaddr : u.addr = 0 := by omega
  have hszu : sz u = 2 ^ 31 := by unfold sz; rw [hpu1]
  have hvaddr : v.addr = 2 ^ 31 := by omega
  have hvplen : v.plen = 1 := by rw [← hOKuv.1, hpu1]
  have hu : u = ⟨0, 1⟩ := network_eq huaddr hpu1
  have hv : v = ⟨2 ^ 31, 1⟩ := network_eq hvaddr hvplen
  have hpair := pairwise_sep_cases (List.chain'_iff_pairwise.mp hg.2)
  have hall : ∀ c ∈ l, c = u ∨ c = v := by
    intro c hc
    have hcn : normal c := hg.1 c hc
    have hcpos := sz_pos c
    rcases hpair c hc u humem with heq | hsepcu | hsepuc
    · exact Or.inl heq
    · exfalso
      unfold SepN at hsepcu
      omega
    · rcases hpair c hc v hvmem with heq | hsepcv | hsepvc
      · exact Or.inr heq
      · exfalso
        unfold SepN at hsepuc hsepcv
        omega
      · exfalso
        unfold SepN at hsepvc
        have hszv : sz v = 2 ^ 31 := by unfold sz; rw [hvplen]
        have := hcn.2.1
        omega
  have hnodup : l.Nodup :=
    List.Pairwise.imp (fun hsep2 => sep_ne hsep2)
      (List.chain'_iff_pairwise.mp hg.2)
  have hsub : l ⊆ [u, v] := by
    intro c hc
    rcases hall c hc with rfl | rfl
    · exact List.mem_cons_self _ _
    · exact List.mem_cons_of_mem _ (List.mem_cons_self _ _)
  have hlen2 : l.length = 2 := by
    have hle := List.Subperm.length_le (List.subperm_of_subset hnodup hsub)
    simp only [List.length_cons, List.length_nil] at hle
    omega
  obtain ⟨a, b, rfl⟩ : ∃ a b, l = [a, b] := by
    cases l with
    | nil => simp at hlen2
    | cons a t =>
      cases t with
      | nil => simp at hlen2
      | cons b t2 =>
        cases t2 with
        | nil => exact ⟨a, b, rfl⟩
        | cons c t3 =>
          simp only [List.length_cons] at hlen2
          omega
  have hab : SepN a b := (List.chain'_cons.mp hg.2).1
  have ha := hall a (List.mem_cons_self _ _)
  have hbmem := hall b (List.mem_cons_of_mem _ (List.mem_cons_self _ _))
  rcases ha with rfl | rfl
  · rcases hbmem with rfl | rfl
    · exact absurd rfl (sep_ne hab)
    · rw [hu, hv]
  · rcases hbmem with rfl | rfl
    · exfalso
      unfold SepN at hab
      have := sz_pos a
      omega
    · exact absurd rfl (sep_ne hab)

/-- A pass over exactly one mergeable pair produces the single shared
supernet. -/
lemma mergePass_pair_merge {u v : Network} (hOK : mergeOK u v) :
    mergePass [u, v] = [supernetClosest u] := by
  rw [mergePass, mergeFold, mergeFold, smallMergedToLarge_eq, if_pos hOK]
  simp

lemma one_le_mergeLoopCCount (l : List Network) : 1 ≤ mergeLoopCCount l := by
  rw [mergeLoopCCount]
  split <;> omega

/-- The pass-count bound for the self-consistent loop: with all adjacent
mergeable pairs of mask size at most M, at most M passes run.  The
strict decrease of the pair bound gives the induction step; at bound 1
the only possible merge is of the two halves of the address space, after
which the list is a singleton and the loop stops. -/
lemma mergeLoopCCount_le (M : Nat) :
    ∀ l, Good l → 2 ≤ l.length → PairsLE l M → 1 ≤ M →
      mergeLoopCCount l ≤ M := by
  induction M with
  | zero => intro l _ _ _ h1; omega
  | succ M ihM =>
    intro l hg hlen hM _
    rw [mergeLoopCCount]
    split
    · omega
    · rename_i h
      push_neg at h
      obtain ⟨pg, plt, pne, pcov, plen, prig, pid⟩ :=
        mergePass_spec hg hlen (M + 1) hM
      by_cases hM0 : M = 0
      · subst hM0
        exfalso
        by_cases hnc : List.Chain' (fun u v => ¬ mergeOK u v) l
        · exact h.1 (by rw [pid hnc])
        · apply h.2
          rw [plen_one_pair_structure hg hlen hM hnc,
            mergePass_pair_merge (by decide)]
          rfl
      · have hout2 : 2 ≤ (mergePass l).length := by
          have h1 : 1 ≤ (mergePass l).length := by
            cases he : mergePass l with
            | nil => exact absurd he pne
            | cons _ _ => simp
          omega
        have := ihM (mergePass l) pg hout2 (pairsLT_succ_to_LE plt) (by omega)
        omega

/-!
## From the parser to the aggregation invariants
-/

lemma parseOctet_le {s : List Char} {n : Nat} {r : List Char}
    (h : parseOctet s = some (n, r)) : n ≤ 255 := by
  unfold parseOctet at h
  rcases hd : dtoi s with ⟨n2, c2, ok2⟩
  rw [hd] at h
  dsimp only at h
  by_cases hcond : ok2 = true ∧ n2 ≤ 255 ∧ ¬(c2 > 1 ∧ s.headD 'x' = '0')
  · rw [if_pos hcond] at h
    cases h
    exact hcond.2.1
  · rw [if_neg hcond] at h
    cases h

lemma parseIPv4_lt {s : List Char} {ip : Nat} (h : parseIPv4 s = some ip) :
    ip < 2 ^ 32 := by
  unfold parseIPv4 at h
  simp only [Option.bind_eq_bind, Option.bind_eq_some] at h
  obtain ⟨⟨o1, r1⟩, h1, ⟨r1b, hd1, ⟨⟨o2, r2⟩, h2, ⟨r2b, hd2, ⟨⟨o3, r3⟩, h3,
    ⟨r3b, hd3, ⟨⟨o4, r4⟩, h4, hfin⟩⟩⟩⟩⟩⟩⟩ := h
  have b1 := parseOctet_le h1
  have b2 := parseOctet_le h2
  have b3 := parseOctet_le h3
  have b4 := parseOctet_le h4
  split at hfin
  · cases hfin
    omega
  · cases hfin

lemma parseCIDR_normal {s : String} {n : Network} (h : parseCIDR s = some n) :
    normal n := by
  unfold parseCIDR at h
  rcases hs : splitSlash s.toList with - | ⟨a, m⟩ <;> rw [hs] at h <;>
    dsimp only at h
  · cases h
  · rcases hip : parseIPv4 a with - | ip <;> rw [hip] at h <;> dsimp only at h
    · cases h
    · rcases hd : dtoi m with ⟨p, i, ok⟩
      rw [hd] at h
      dsimp only at h
      split at h
      · rename_i hcond
        cases h
        exact ⟨hcond.2.2, maskA_lt (parseIPv4_lt hip), maskA_maskA (le_refl _) _⟩
      · cases h

lemma parseAll_normal : ∀ {ts : List String} {l : List Network},
    parseAll ts = .ok l → ∀ n ∈ l, normal n := by
  intro ts
  induction ts with
  | nil =>
    intro l h n hn
    unfold parseAll at h
    cases h
    cases hn
  | cons s rest ih =>
    intro l h n hn
    unfold parseAll at h
    rcases hp : parseCIDR s with - | n0 <;> rw [hp] at h
    · cases h
    · rcases hr : parseAll rest with e | l2 <;> rw [hr] at h
      · cases h
      · cases h
        rcases List.mem_cons.mp hn with rfl | hn2
        · exact parseCIDR_normal hp
        · exact ih hr n hn2

/-- The list handed to aggregateNetworks by getNetsFromString: every
element is well-formed and the list is ByNet-sorted. -/
lemma getNetsFromString_ok {ts : List String} {nets : List Network}
    (h : getNetsFromString ts = .ok nets) :
    (∀ n ∈ nets, normal n) ∧ List.Chain' netLE nets := by
  unfold getNetsFromString at h
  rcases hp : parseAll ts with e | l <;> rw [hp] at h
  · cases h
  · cases h
    constructor
    · intro n hn
      exact parseAll_normal hp n ((List.perm_insertionSort netLE l).mem_iff.mp hn)
    · exact List.chain'_iff_pairwise.mpr (List.sorted_insertionSort netLE l)

lemma pairsLE_32 {l : List Network} (hn : ∀ n ∈ l, normal n) : PairsLE l 32 := by
  rw [PairsLE, List.chain'_iff_get]
  intro i hi _
  exact (hn _ (List.get_mem _ _ _)).1

/-- Everything the pipeline claims need from aggregateNetworks on a
sorted, well-formed input: the output is well-separated and well-formed,
covers exactly the input, is a fixpoint of the merge pass whenever it has
at least two elements, and is produced in at most 32 merge passes. -/
lemma aggregate_spec {nets : List Network} (hn : ∀ n ∈ nets, normal n)
    (hs : List.Chain' netLE nets) :
    Good (aggregateNetworks nets) ∧
      (∀ x, covered (aggregateNetworks nets) x ↔ covered nets x) ∧
      (2 ≤ (aggregateNetworks nets).length →
        mergePass (aggregateNetworks nets) = aggregateNetworks nets) ∧
      aggregateCount nets ≤ 32 := by
  obtain ⟨ga, na, ca, la⟩ := absorbRun_spec nets hn hs
  unfold aggregateNetworks aggregateCount
  by_cases h2 : nets.length < 2
  · rw [if_pos h2, if_pos h2]
    refine ⟨⟨hn, ?_⟩, fun x => Iff.rfl, fun hlen => by omega, by omega⟩
    cases nets with
    | nil => exact List.chain'_nil
    | cons a t =>
      cases t with
      | nil => exact List.chain'_singleton _
      | cons b t2 =>
        simp only [List.length_cons] at h2
        omega
  · rw [if_neg h2, if_neg h2]
    by_cases habs : (absorbRun nets).length = 1
    · rw [if_pos habs, if_pos habs]
      exact ⟨ga, ca, fun hlen => by omega, by omega⟩
    · rw [if_neg habs, if_neg habs]
      have hane : absorbRun nets ≠ [] := by
        apply na
        intro he
        rw [he] at h2
        simp at h2
      have habs2 : 2 ≤ (absorbRun nets).length := by
        have h1 : 1 ≤ (absorbRun nets).length := by
          cases he : absorbRun nets with
          | nil => exact absurd he hane
          | cons _ _ => simp
        omega
      have hM := pairsLE_32 ga.1
      obtain ⟨pg, plt, pne, pcov, plen2, prig, -⟩ := mergePass_spec ga habs2 32 hM
      unfold mergeLoop mergeLoopCount
      by_cases hstop : (mergePass (absorbRun nets)).length = nets.length ∨
          (mergePass (absorbRun nets)).length = 1
      · rw [if_pos hstop, if_pos hstop]
        refine ⟨pg, fun x => (pcov x).trans (ca x), ?_, by omega⟩
        intro hlen
        rcases hstop with hstop | hstop
        · have he1 : (mergePass (absorbRun nets)).length =
              (absorbRun nets).length := by omega
          have hid := prig he1
          rw [hid]
          exact hid
        · omega
      · rw [if_neg hstop, if_neg hstop]
        push_neg at hstop
        have hout2 : 2 ≤ (mergePass (absorbRun nets)).length := by
          have h1 : 1 ≤ (mergePass (absorbRun nets)).length := by
            cases he : mergePass (absorbRun nets) with
            | nil => exact absurd he pne
            | cons _ _ => simp
          omega
        obtain ⟨lg, lcov, lne, lfix⟩ :=
          mergeLoopC_spec (mergePass (absorbRun nets)).length
            (mergePass (absorbRun nets)) (le_refl _) pg hout2 32
            (pairsLT_to_LE plt)
        have hcount := mergeLoopCCount_le 31 (mergePass (absorbRun nets)) pg
          hout2 (pairsLT_succ_to_LE plt) (by omega)
        refine ⟨lg, fun x => (lcov x).trans ((pcov x).trans (ca x)),
          fun hlen => ?_, by omega⟩
        rcases lfix with h1 | h1
        · omega
        · exact h1

/-- aggregateNetworks is the identity on a well-separated list that the
merge pass leaves unchanged. -/
lemma aggregate_fixed {F : List Network} (hg : Good F)
    (hfix : 2 ≤ F.length → mergePass F = F) : aggregateNetworks F = F := by
  unfold aggregateNetworks
  by_cases h2 : F.length < 2
  · rw [if_pos h2]
  · rw [if_neg h2, absorbRun_id hg, if_neg (by omega)]
    unfold mergeLoop
    rw [hfix (by omega), if_pos (Or.inl rfl)]

lemma good_sorted {l : List Network} (hg : Good l) : List.Sorted netLE l :=
  (List.chain'_iff_pairwise.mp hg.2).imp
    (fun {a b} hsep => Or.inl (by unfold SepN at hsep; have := sz_pos a; omega))

lemma sortNets_eq_of_perm {l F : List Network} (hperm : l.Perm F)
    (hF : List.Sorted netLE F) : sortNets l = F :=
  List.eq_of_perm_of_sorted ((List.perm_insertionSort netLE l).trans hperm)
    (List.sorted_insertionSort netLE l) hF

/-!
## The argument pairs fed to smallMergedToLarge
-/

/-- The running net1 of a pass is always the previous net2, so the
comparison pairs of a pass are exactly the consecutive pairs of its
input, independent of the accumulator. -/
lemma mergeFoldCalls_eq_zip (rest : List Network) :
    ∀ acc net1, mergeFoldCalls acc net1 rest = (net1 :: rest).zip rest := by
  induction rest with
  | nil => intro acc net1; rfl
  | cons net2 rest2 ih =>
    intro acc net1
    rw [mergeFoldCalls, smallMergedToLarge_snd, ih]
    rfl

lemma mergePassCalls_plen {l : List Network} (hplen : ∀ n ∈ l, 1 ≤ n.plen) :
    ∀ pr ∈ mergePassCalls l, 1 ≤ pr.1.plen ∧ 1 ≤ pr.2.plen := by
  cases l with
  | nil => intro pr hpr; cases hpr
  | cons net1 rest =>
    rw [mergePassCalls, mergeFoldCalls_eq_zip]
    rintro ⟨u, v⟩ hpr
    obtain ⟨hu, hv⟩ := List.of_mem_zip hpr
    exact ⟨hplen u hu, hplen v (List.mem_cons_of_mem _ hv)⟩

lemma mergeLoopCCalls_plen (k : Nat) :
    ∀ l, l.length ≤ k → Good l → 2 ≤ l.length →
      ∀ pr ∈ mergeLoopCCalls l, 1 ≤ pr.1.plen ∧ 1 ≤ pr.2.plen := by
  induction k with
  | zero => intro l hlk _ hlen; omega
  | succ k ih =>
    intro l hlk hg hlen pr hpr
    have hpass := mergePassCalls_plen (good_plen_pos hg hlen)
    rw [mergeLoopCCalls] at hpr
    split at hpr
    · exact hpass pr hpr
    · rename_i h
      push_neg at h
      obtain ⟨pg, plt, pne, -, plen2, -, -⟩ :=
        mergePass_spec hg hlen 32 (pairsLE_32 hg.1)
      rcases List.mem_append.mp hpr with hpr2 | hpr2
      · exact hpass pr hpr2
      · have hout2 : 2 ≤ (mergePass l).length := by
          have h1 : 1 ≤ (mergePass l).length := by
            cases he : mergePass l with
            | nil => exact absurd he pne
            | cons _ _ => simp
          omega
        exact ih (mergePass l) (by omega) pg hout2 pr hpr2

/-- Every element of the whole 32-bit space is contained in the 0-mask
network. -/
lemma contains_univ {n : Network} (hn : normal n) :
    containsNet ⟨0, 0⟩ n = true := by
  rw [containsNet_true_iff]
  refine ⟨Nat.zero_le _, ?_⟩
  show maskA 0 n.addr = 0
  unfold maskA
  rw [Nat.div_eq_of_lt]
  · simp
  · simpa using hn.2.1

/-- With a 0-mask network anywhere in the ByNet-sorted input, the sorted
head is that network, the absorb phase swallows everything, and
aggregateNetworks returns the single-element list without ever invoking
smallMergedToLarge. -/
lemma aggregate_zero_plen {nets : List Network} (hn : ∀ n ∈ nets, normal n)
    (hs : List.Chain' netLE nets) (hz : ∃ n ∈ nets, n.plen = 0) :
    aggregateNetworks nets = [⟨0, 0⟩] ∧ aggregateCalls nets = [] := by
  obtain ⟨z, hzmem, hzplen⟩ := hz
  have hzeq : z = (⟨0, 0⟩ : Network) :=
    network_eq (plen_zero_addr_zero (hn z hzmem) hzplen) hzplen
  subst hzeq
  cases nets with
  | nil => cases hzmem
  | cons h0 rest =>
    have hh0 : h0 = (⟨0, 0⟩ : Network) := by
      rcases List.mem_cons.mp hzmem with heq | hmem2
      · exact heq.symm
      · have hle : netLE h0 ⟨0, 0⟩ :=
          List.rel_of_pairwise_cons (List.chain'_iff_pairwise.mp hs) hmem2
        unfold netLE at hle
        rw [show ((⟨0, 0⟩ : Network)).addr = 0 from rfl,
          show ((⟨0, 0⟩ : Network)).plen = 0 from rfl] at hle
        exact network_eq (show h0.addr = 0 by omega) (show h0.plen = 0 by omega)
    subst hh0
    have habs : absorbRun ((⟨0, 0⟩ : Network) :: rest) = [⟨0, 0⟩] := by
      rw [absorbRun]
      exact absorbFold_all_contained rest [⟨0, 0⟩] ⟨0, 0⟩
        (fun n hmem => contains_univ (hn n (List.mem_cons_of_mem _ hmem)))
    unfold aggregateNetworks aggregateCalls
    by_cases h2 : ((⟨0, 0⟩ : Network) :: rest).length < 2
    · rw [if_pos h2, if_pos h2]
      cases rest with
      | nil => exact ⟨rfl, rfl⟩
      | cons b t =>
        simp only [List.length_cons] at h2
        omega
    · rw [if_neg h2, if_neg h2, habs,
        if_pos (show ([(⟨0, 0⟩ : Network)].length = 1) from rfl)]
      exact ⟨rfl, rfl⟩

lemma filter_blank_nil {lines : List String} (h : ∀ t ∈ lines, isBlank t = true) :
    lines.filter (fun s => !isBlank s) = [] := by
  induction lines with
  | nil => rfl
  | cons s rest ih =>
    rw [List.filter_cons, h s (List.mem_cons_self _ _)]
    simp only [Bool.not_true, if_false, Bool.false_eq_true, ite_false]
    exact ih fun t ht => h t (List.mem_cons_of_mem _ ht)

/-- The first failing token determines the error of getNetsFromString. -/
lemma parseAll_append_bad {bad : String} (hbad : parseCIDR bad = none) :
    ∀ (pre post : List String), (∀ t ∈ pre, (parseCIDR t).isSome) →
      parseAll (pre ++ bad :: post) =
        .error ("Bad IP network value: <" ++ bad ++ ">") := by
  intro pre
  induction pre with
  | nil =>
    intro post _
    rw [List.nil_append, parseAll, hbad]
  | cons s pre2 ih =>
    intro post hpre
    obtain ⟨n0, hn0⟩ := Option.isSome_iff_exists.mp
      (hpre s (List.mem_cons_self _ _))
    rw [List.cons_append, parseAll, hn0,
      ih post fun t ht => hpre t (List.mem_cons_of_mem _ ht)]

lemma aggregateCalls_plen {nets : List Network} (hn : ∀ n ∈ nets, normal n)
    (hs : List.Chain' netLE nets) :
    ∀ pr ∈ aggregateCalls nets, 1 ≤ pr.1.plen ∧ 1 ≤ pr.2.plen := by
  unfold aggregateCalls
  by_cases h2 : nets.length < 2
  · rw [if_pos h2]
    intro pr hpr
    cases hpr
  · rw [if_neg h2]
    obtain ⟨ga, na, ca, la⟩ := absorbRun_spec nets hn hs
    by_cases habs : (absorbRun nets).length = 1
    · rw [if_pos habs]
      intro pr hpr
      cases hpr
    · rw [if_neg habs]
      have hane : absorbRun nets ≠ [] := by
        apply na
        intro he
        rw [he] at h2
        simp at h2
      have habs2 : 2 ≤ (absorbRun nets).length := by
        have h1 : 1 ≤ (absorbRun nets).length := by
          cases he : absorbRun nets with
          | nil => exact absurd he hane
          | cons _ _ => simp
        omega
      have hpass := mergePassCalls_plen (good_plen_pos ga habs2)
      unfold mergeLoopCalls
      obtain ⟨pg, plt, pne, -, plen2, -, -⟩ :=
        mergePass_spec ga habs2 32 (pairsLE_32 ga.1)
      split
      · exact hpass
      · rename_i hstop
        push_neg at hstop
        intro pr hpr
        rcases List.mem_append.mp hpr with hpr2 | hpr2
        · exact hpass pr hpr2
        · have hout2 : 2 ≤ (mergePass (absorbRun nets)).length := by
            have h1 : 1 ≤ (mergePass (absorbRun nets)).length := by
              cases he : mergePass (absorbRun nets) with
              | nil => exact absurd he pne
              | cons _ _ => simp
            omega
          exact mergeLoopCCalls_plen (mergePass (absorbRun nets)).length
            (mergePass (absorbRun nets)) (le_refl _) pg hout2 pr hpr2

/-!
## The claims
-/

/-- C1: For every list of valid CIDR tokens, the union of 32-bit address
ranges of the networks returned by aggregateNetworks equals the union of
address ranges of the deduplicated, parsed input networks: absorption and
merging never lose and never add coverage. -/
theorem C1_coverage_preserved {ts : List String} {nets : List Network}
    (h : getNetsFromString (deduplicate ts) = .ok nets) :
    coverageSet (aggregateNetworks nets) = coverageSet nets := by
  obtain ⟨hn, hs⟩ := getNetsFromString_ok h
  obtain ⟨-, hcov, -, -⟩ := aggregate_spec hn hs
  ext x
  exact hcov x

/-- Witness for C1 at the tokens 10.0.0.0/24 and 10.0.1.0/24. -/
theorem C1_coverage_preserved_witness :
    coverageSet (aggregateNetworks [⟨167772160, 24⟩, ⟨167772416, 24⟩]) =
      coverageSet [⟨167772160, 24⟩, ⟨167772416, 24⟩] :=
  @C1_coverage_preserved ["10.0.0.0/24", "10.0.1.0/24"]
    [⟨167772160, 24⟩, ⟨167772416, 24⟩] rfl

/-- C2: For every input, no two distinct networks in the final result of
aggregateNetworks satisfy contains(A,B), and already after the absorber
pass no element of its result is contained in another element. -/
theorem C2_containment_free {ts : List String} {nets : List Network}
    (h : getNetsFromString ts = .ok nets) :
    (∀ A ∈ aggregateNetworks nets, ∀ B ∈ aggregateNetworks nets, A ≠ B →
      containsNet A B = false) ∧
    (∀ A ∈ absorbRun nets, ∀ B ∈ absorbRun nets, A ≠ B →
      containsNet A B = false) := by
  obtain ⟨hn, hs⟩ := getNetsFromString_ok h
  obtain ⟨hg, -, -, -⟩ := aggregate_spec hn hs
  obtain ⟨hga, -, -, -⟩ := absorbRun_spec nets hn hs
  exact ⟨good_no_contains hg, good_no_contains hga⟩

/-- Witness for C2 at the tokens 10.0.0.0/24 and 10.0.2.0/24, whose
aggregation keeps both networks. -/
theorem C2_containment_free_witness :
    containsNet ⟨167772160, 24⟩ ⟨167772672, 24⟩ = false :=
  (@C2_containment_free ["10.0.0.0/24", "10.0.2.0/24"]
    [⟨167772160, 24⟩, ⟨167772672, 24⟩] rfl).1
    ⟨167772160, 24⟩ (by decide) ⟨167772672, 24⟩ (by decide) (by decide)

/-- C3 counterexample: a designated file whose lines are all blank gives
an empty token set, yet getNetsFromInput returns it with a nil error and
the whole run succeeds with empty output instead of rejecting the input
with an InputSelectionError. -/
theorem C3_counterexample :
    getNetsFromInput "" "nets.txt" [" ", ""] = .ok [] ∧
    runMain "" "nets.txt" [" ", ""] = .ok [] := ⟨rfl, rfl⟩

/-- C3 as amended: when the designated input is a string, an empty or
whitespace-only string is rejected before parsing with the descriptive
InputSelectionError (input selection sees it as absent); but a designated
file whose lines are all empty or whitespace-only is not rejected: the
empty token set is returned without error and the run succeeds producing
no networks. -/
theorem C3_amended_empty_input :
    ∀ (s path : String) (lines : List String),
    (isBlank s = true →
      getNetsFromInput s "" lines =
        .error "No input defined. Choose string or file input") ∧
    (isBlank s = true → isBlank path = false →
      (∀ t ∈ lines, isBlank t = true) →
      getNetsFromInput s path lines = .ok [] ∧
      runMain s path lines = .ok []) := by
  intro s path lines
  constructor
  · intro hs
    unfold getNetsFromInput
    rw [if_pos ⟨hs, rfl⟩]
  · intro hs hpath hblank
    have h1 : ¬(isBlank s = true ∧ isBlank path = true) := by simp [hpath]
    have h2 : ¬(¬isBlank s = true ∧ ¬isBlank path = true) := by simp [hs]
    have hget : getNetsFromInput s path lines = .ok [] := by
      unfold getNetsFromInput
      rw [if_neg h1, if_neg h2]
      rw [if_neg (show ¬¬(isBlank s = true) by simp [hs])]
      dsimp only
      rw [filter_blank_nil hblank]
      rfl
    refine ⟨hget, ?_⟩
    unfold runMain
    rw [hget]
    rfl

/-- Witness for the amended C3: a whitespace-only string input is
rejected, and a whitespace-only file input silently yields no output. -/
theorem C3_amended_empty_input_witness :
    getNetsFromInput " " "" ["x"] =
      .error "No input defined. Choose string or file input" ∧
    getNetsFromInput "" "f.txt" ["  "] = .ok [] ∧
    runMain "" "f.txt" ["  "] = .ok [] :=
  ⟨(C3_amended_empty_input " " "" ["x"]).1 rfl,
    ((C3_amended_empty_input "" "f.txt" ["  "]).2 rfl rfl (by decide)).1,
    ((C3_amended_empty_input "" "f.txt" ["  "]).2 rfl rfl (by decide)).2⟩

/-- C4: in every merger pass the comparison pairs are exactly the
consecutive pairs of the pass input: after a merge of net1 and net2 the
scan continues from the element after net2, with net2 as the running
element; both branches of smallMergedToLarge return net2, and the
combined supernet is only appended as the just-emitted output, never
used as the next net1. -/
theorem C4_merge_consumes_net2 :
    (∀ (acc : List Network) (net1 : Network) (rest : List Network),
      mergeFoldCalls acc net1 rest = (net1 :: rest).zip rest) ∧
    (∀ (acc : List Network) (net1 net2 : Network),
      (smallMergedToLarge acc net1 net2).2 = net2) ∧
    (∀ (acc : List Network) (net1 net2 : Network), mergeOK net1 net2 →
      ∃ front, (smallMergedToLarge acc net1 net2).1 =
        front ++ [supernetClosest net1]) := by
  refine ⟨fun acc net1 rest => mergeFoldCalls_eq_zip rest acc net1,
    smallMergedToLarge_snd, fun acc net1 net2 hOK => ?_⟩
  rw [smallMergedToLarge_eq, if_pos hOK]
  exact ⟨_, rfl⟩

/-- Witness for C4 at the mergeable pair 10.0.0.0/24, 10.0.1.0/24. -/
theorem C4_merge_consumes_net2_witness :
    mergeFoldCalls [] ⟨167772160, 24⟩ [⟨167772416, 24⟩] =
      ([⟨167772160, 24⟩, ⟨167772416, 24⟩] : List Network).zip
        [⟨167772416, 24⟩] ∧
    (smallMergedToLarge [] ⟨167772160, 24⟩ ⟨167772416, 24⟩).2 =
      ⟨167772416, 24⟩ ∧
    ∃ front, (smallMergedToLarge [] ⟨167772160, 24⟩ ⟨167772416, 24⟩).1 =
      front ++ [supernetClosest ⟨167772160, 24⟩] :=
  ⟨C4_merge_consumes_net2.1 [] ⟨167772160, 24⟩ [⟨167772416, 24⟩],
    C4_merge_consumes_net2.2.1 [] ⟨167772160, 24⟩ ⟨167772416, 24⟩,
    C4_merge_consumes_net2.2.2 [] ⟨167772160, 24⟩ ⟨167772416, 24⟩ (by decide)⟩

/-- C5 counterexample: on the sorted parse of 10.0.0.0/16, 10.0.0.0/24,
20.0.0.0/24, 30.0.0.0/24 the absorber shrinks the list from 4 to 3, the
first merge pass returns a list as long as its own input (3), yet the
loop does not stop there: it compares against the pre-absorption length
4 and runs a second pass, so a pass whose output is as long as its own
input is not the last pass executed. -/
theorem C5_counterexample :
    getNetsFromString ["10.0.0.0/16", "10.0.0.0/24", "20.0.0.0/24",
        "30.0.0.0/24"] =
      .ok [⟨167772160, 16⟩, ⟨167772160, 24⟩, ⟨335544320, 24⟩,
        ⟨503316480, 24⟩] ∧
    (mergePass (absorbRun [⟨167772160, 16⟩, ⟨167772160, 24⟩,
        ⟨335544320, 24⟩, ⟨503316480, 24⟩])).length =
      (absorbRun [⟨167772160, 16⟩, ⟨167772160, 24⟩, ⟨335544320, 24⟩,
        ⟨503316480, 24⟩]).length ∧
    aggregateCount [⟨167772160, 16⟩, ⟨167772160, 24⟩, ⟨335544320, 24⟩,
      ⟨503316480, 24⟩] = 2 := by
  refine ⟨rfl, rfl, ?_⟩
  unfold aggregateCount mergeLoopCount
  rw [if_neg (by decide), if_neg (by decide), if_neg (by decide)]
  rw [mergeLoopCCount, dif_pos (by decide)]

/-- C5 as amended: the pass loop stops exactly when a pass's output
length equals the tracked netsNumber or equals 1, where netsNumber is
the pre-absorption input length for the first pass and the pass's own
input length from the second pass on; consequently from the second pass
onward a pass whose output is as long as its own input is the last pass
executed, but the first pass compares against the pre-absorption length
and may be followed by one extra pass even when it did not shrink its
input. -/
theorem C5_amended_stop_rule :
    ∀ (l : List Network) (n : Nat),
      (mergeLoopCount l n = 1 ↔
        (mergePass l).length = n ∨ (mergePass l).length = 1) ∧
      (mergeLoopCCount l = 1 ↔
        (mergePass l).length = l.length ∨ (mergePass l).length = 1) := by
  intro l n
  constructor
  · unfold mergeLoopCount
    split
    · rename_i h
      exact iff_of_true rfl h
    · rename_i h
      refine iff_of_false ?_ h
      have := one_le_mergeLoopCCount (mergePass l)
      omega
  · rw [mergeLoopCCount]
    split
    · rename_i h
      exact iff_of_true rfl h
    · rename_i h
      refine iff_of_false ?_ h
      have := one_le_mergeLoopCCount (mergePass l)
      omega

/-- C6: aggregation is idempotent.  The output of aggregateNetworks on a
parsed, sorted input is returned unchanged when fed again through the
pipeline: deduplication can reorder the (pairwise distinct) networks
arbitrarily, the sort restores the unique ByNet order, and absorb and
merge leave the already-aggregated set untouched. -/
theorem C6_idempotent {ts : List String} {nets : List Network}
    (h : getNetsFromString ts = .ok nets) :
    ∀ l, l.Perm (aggregateNetworks nets) →
      aggregateNetworks (sortNets l) = aggregateNetworks nets := by
  obtain ⟨hn, hs⟩ := getNetsFromString_ok h
  obtain ⟨hg, -, hfix, -⟩ := aggregate_spec hn hs
  intro l hperm
  rw [sortNets_eq_of_perm hperm (good_sorted hg)]
  exact aggregate_fixed hg hfix

/-- Witness for C6 at the tokens 10.0.0.0/24 and 10.0.1.0/24. -/
theorem C6_idempotent_witness :
    aggregateNetworks (sortNets [⟨167772160, 23⟩]) =
      aggregateNetworks [⟨167772160, 24⟩, ⟨167772416, 24⟩] :=
  @C6_idempotent ["10.0.0.0/24", "10.0.1.0/24"]
    [⟨167772160, 24⟩, ⟨167772416, 24⟩] rfl [⟨167772160, 23⟩] (by decide)

/-- C7: a malformed token makes the whole parse fail with the error
naming that token — the first failure wins — and the failure aborts the
run before any aggregation: runMain propagates the error and produces no
network list.  Concretely, a prefix above 32, an octet above 255 and a
truncated dotted quad are all rejected. -/
theorem C7_parse_error :
    (∀ (pre post : List String) (bad : String),
      (∀ t ∈ pre, (parseCIDR t).isSome) → parseCIDR bad = none →
      getNetsFromString (pre ++ bad :: post) =
        .error ("Bad IP network value: <" ++ bad ++ ">") ∧
      (∀ (str path : String) (lines : List String),
        getNetsFromInput str path lines = .ok (pre ++ bad :: post) →
        runMain str path lines =
          .error ("Bad IP network value: <" ++ bad ++ ">"))) ∧
    parseCIDR "10.0.0.0/33" = none ∧ parseCIDR "10.0.0.256/24" = none ∧
    parseCIDR "10.0.0/24" = none := by
  refine ⟨fun pre post bad hpre hbad => ?_, rfl, rfl, rfl⟩
  have hget : getNetsFromString (pre ++ bad :: post) =
      .error ("Bad IP network value: <" ++ bad ++ ">") := by
    unfold getNetsFromString
    rw [parseAll_append_bad hbad pre post hpre]
  refine ⟨hget, fun str path lines hin => ?_⟩
  unfold runMain
  rw [hin]
  dsimp only
  rw [hget]

/-- Witness for C7: scenario 6, the token 10.0.0.0/33 after one valid
token. -/
theorem C7_parse_error_witness :
    getNetsFromString (["10.0.0.0/8"] ++ "10.0.0.0/33" :: []) =
      .error "Bad IP network value: <10.0.0.0/33>" :=
  ((C7_parse_error.1 ["10.0.0.0/8"] [] "10.0.0.0/33" (by decide) rfl).1)

/-- C8: every Network the core produces is normalized: parsing masks the
host bits of the literal address off, and every element of the
aggregated output — input networks and computed supernets alike — keeps
address AND mask(prefix) equal to the address. -/
theorem C8_normalized :
    (∀ (s : String) (n : Network), parseCIDR s = some n →
      maskA n.plen n.addr = n.addr ∧ n.plen ≤ 32) ∧
    (∀ (ts : List String) (nets : List Network),
      getNetsFromString ts = .ok nets → ∀ n ∈ aggregateNetworks nets,
        maskA n.plen n.addr = n.addr ∧ n.plen ≤ 32) := by
  constructor
  · intro s n h
    have hn := parseCIDR_normal h
    exact ⟨hn.2.2, hn.1⟩
  · intro ts nets h n hmem
    obtain ⟨hn, hs⟩ := getNetsFromString_ok h
    obtain ⟨hg, -, -, -⟩ := aggregate_spec hn hs
    exact ⟨(hg.1 n hmem).2.2, (hg.1 n hmem).1⟩

/-- Witness for C8: the token 10.0.0.7/24 has host bits set and parses
to the normalized network 10.0.0.0/24. -/
theorem C8_normalized_witness :
    maskA (⟨167772160, 24⟩ : Network).plen (⟨167772160, 24⟩ : Network).addr =
      (⟨167772160, 24⟩ : Network).addr ∧
    (⟨167772160, 24⟩ : Network).plen ≤ 32 :=
  C8_normalized.1 "10.0.0.7/24" ⟨167772160, 24⟩ rfl

/-- C9: the merger's fixpoint loop terminates after at most 32 passes on
any pipeline input, and no pass ever lengthens its input. -/
theorem C9_at_most_32_passes {ts : List String} {nets : List Network}
    (h : getNetsFromString ts = .ok nets) :
    aggregateCount nets ≤ 32 ∧
      ∀ l : List Network, (mergePass l).length ≤ l.length := by
  obtain ⟨hn, hs⟩ := getNetsFromString_ok h
  obtain ⟨-, -, -, hcount⟩ := aggregate_spec hn hs
  exact ⟨hcount, mergePass_length_le⟩

/-- Witness for C9 at the tokens 10.0.0.0/24 and 10.0.1.0/24. -/
theorem C9_at_most_32_passes_witness :
    aggregateCount [⟨167772160, 24⟩, ⟨167772416, 24⟩] ≤ 32 ∧
      (mergePass [(⟨167772160, 23⟩ : Network)]).length ≤
        [(⟨167772160, 23⟩ : Network)].length :=
  ⟨(@C9_at_most_32_passes ["10.0.0.0/24", "10.0.1.0/24"]
      [⟨167772160, 24⟩, ⟨167772416, 24⟩] rfl).1,
    (@C9_at_most_32_passes ["10.0.0.0/24", "10.0.1.0/24"]
      [⟨167772160, 24⟩, ⟨167772416, 24⟩] rfl).2 [⟨167772160, 23⟩]⟩

/-- C10: every (net1, net2) pair handed to smallMergedToLarge during
aggregateNetworks has both mask sizes at least 1, so the discarded error
from Supernet(0) on a 0-mask network is unreachable; and when a 0-mask
network occurs in the input it absorbs everything in the absorb phase,
aggregateNetworks returns the single-element result, and
smallMergedToLarge is never invoked at all. -/
theorem C10_supernet_error_unreachable {ts : List String}
    {nets : List Network} (h : getNetsFromString ts = .ok nets) :
    (∀ pr ∈ aggregateCalls nets, 1 ≤ pr.1.plen ∧ 1 ≤ pr.2.plen) ∧
      ((∃ n ∈ nets, n.plen = 0) →
        aggregateNetworks nets = [⟨0, 0⟩] ∧ aggregateCalls nets = []) := by
  obtain ⟨hn, hs⟩ := getNetsFromString_ok h
  exact ⟨aggregateCalls_plen hn hs, aggregate_zero_plen hn hs⟩

/-- Witness for C10 at the tokens 0.0.0.0/0 and 10.0.0.0/24. -/
theorem C10_supernet_error_unreachable_witness :
    aggregateNetworks [⟨0, 0⟩, ⟨167772160, 24⟩] = [⟨0, 0⟩] ∧
      aggregateCalls [⟨0, 0⟩, ⟨167772160, 24⟩] = [] :=
  (@C10_supernet_error_unreachable ["0.0.0.0/0", "10.0.0.0/24"]
    [⟨0, 0⟩, ⟨167772160, 24⟩] rfl).2 (by decide)
